import Mathlib

/-!
Verification of the core logic of the basic-price-tracker repository.

The JavaScript source is shallowly embedded in Lean 4.  JavaScript numbers
are modelled as exact rationals (`ℚ`); the JavaScript truthiness test
`p && !isNaN(p)` on a price is modelled as `p ≠ 0` (a `ℚ` is never NaN, and
a nonzero number is truthy).  JavaScript strings are modelled as `String`
or `List Char`.  Mutation of an object field is modelled by returning an
updated record; maps held in plain objects are modelled as functions with
an `Option` codomain (`none` = property absent).

Everything below is translated from `src/unnamed/part_000` and
`src/unnamed/part_002`, except for the definitions whose doc comment
starts with "Modelled from the spec:", which formalise wording of
`spec.md` for comparison with the code.
-/

/-! ## Analytics (src/unnamed/part_002, class Analytics, lines 863-1232)

All functions below receive the price list exactly as the application
builds it: newest price first (`saveToHistory` uses `unshift`,
src/unnamed/part_000 line 1426). -/

/-- `prices.filter(p => p && !isNaN(p))`: keep truthy, non-NaN entries.
Over `ℚ` this is exactly the nonzero entries. -/
def jsValid (prices : List ℚ) : List ℚ := prices.filter (fun p => p ≠ 0)

/-- `Math.round(x)` of JavaScript: round half towards positive infinity. -/
def jsRound (x : ℚ) : ℤ := ⌊x + 1/2⌋

/-- `Analytics.calculateMovingAverage(prices, period)` (lines 870-878).
Returns `none` where the source returns `null`. -/
def calculateMovingAverage (prices : List ℚ) (period : Nat) : Option ℚ :=
  if prices.length < period then none
  else
    let validPrices := (jsValid prices).take period
    if validPrices.length < period then none
    else some (validPrices.sum / (validPrices.length : ℚ))

/-- Modelled from the spec: "`sma(prices, period)`: arithmetic mean of the
first `period` valid (non-NaN) entries; returns \"unavailable\" if fewer
than `period` valid entries exist." -/
def specSMA (prices : List ℚ) (period : Nat) : Option ℚ :=
  let v := jsValid prices
  if v.length < period then none
  else some ((v.take period).sum / (period : ℚ))

/-- One step of the EMA recurrence of `calculateEMA`:
`ema = price * multiplier + ema * (1 - multiplier)` (line 890). -/
def emaStep (m e p : ℚ) : ℚ := p * m + e * (1 - m)

/-- `Analytics.calculateEMA(prices, period)` (lines 880-894).  Seeds the
recurrence with `validPrices[0]` (the head of the list as given, i.e. the
newest entry) and folds forward through the whole valid list in array
order. -/
def calculateEMA (prices : List ℚ) (period : Nat) : Option ℚ :=
  if prices.length < period then none
  else
    let validPrices := jsValid prices
    if validPrices.length < period then none
    else
      let multiplier : ℚ := 2 / ((period : ℚ) + 1)
      some (validPrices.tail.foldl (emaStep multiplier) validPrices.headI)

/-- Modelled from the spec: "`ema(prices, period)`: exponential moving
average seeded with the oldest value in the window, smoothing factor
`2/(period+1)`, iterated forward through the chronological order" — on a
newest-first input the oldest value is the last valid entry and the
chronological order is the reverse of the array order.  The window is read
as the whole valid list, the same entries the code folds over. -/
def specEMA (prices : List ℚ) (period : Nat) : Option ℚ :=
  if prices.length < period then none
  else
    let validPrices := jsValid prices
    if validPrices.length < period then none
    else
      let multiplier : ℚ := 2 / ((period : ℚ) + 1)
      let chron := validPrices.reverse
      some (chron.tail.foldl (emaStep multiplier) chron.headI)

/-- The consecutive differences `validPrices[i] - validPrices[i-1]` for
`i = 1..w.length-1`, in the array order of `calculateRSI`'s loop
(lines 905-912). -/
def rsiChanges (w : List ℚ) : List ℚ := List.zipWith (fun a b => b - a) w w.tail

/-- Sum of the positive changes: the loop's `gains` accumulator. -/
def rsiGains (changes : List ℚ) : ℚ := (changes.filter (fun c => 0 < c)).sum

/-- Sum of `Math.abs(change)` over the non-positive changes: the loop's
`losses` accumulator. -/
def rsiLosses (changes : List ℚ) : ℚ :=
  ((changes.filter (fun c => ¬ 0 < c)).map (fun c => -c)).sum

/-- `Analytics.calculateRSI(prices, period = 14)` (lines 896-923). -/
def calculateRSI (prices : List ℚ) (period : Nat := 14) : Option ℚ :=
  if prices.length < period + 1 then none
  else
    let validPrices := jsValid prices
    if validPrices.length < period + 1 then none
    else
      let changes := rsiChanges (validPrices.take (period + 1))
      let avgGain := rsiGains changes / (period : ℚ)
      let avgLoss := rsiLosses changes / (period : ℚ)
      if avgLoss = 0 then some 100
      else some ((jsRound ((100 - 100 / (1 + avgGain / avgLoss)) * 100) : ℚ) / 100)

/-! ## Trading (src/unnamed/part_002, class TradingPlatform, lines 1691-2030)

`executeTrade` (lines 1918-1982) reads the asset, the amount and the order
type from the DOM and the price from `this.prices[asset]`; here they are
arguments.  The price argument is the looked-up quote for the asset (the
model covers trades on assets that have a quoted price).  Holdings are a
total function with default 0: `holdings[asset] || 0` is the function
value, and `delete holdings[asset]` at exactly 0 is the constant 0. -/

inductive TradeAction | buy | sell
deriving DecidableEq

/-- `PortfolioState`: `{ cash, holdings }` of `loadPortfolio`
(lines 1727-1735); `totalValue`/`totalPnL` are derived on read and
not part of the ledger state used by `executeTrade`. -/
structure Portfolio where
  cash : ℚ
  holdings : String → ℚ

/-- An order record as built by `executeTrade` (lines 1958-1969). -/
structure Order where
  id : Nat
  asset : String
  action : TradeAction
  amount : ℚ
  price : ℚ
  total : ℚ
  fee : ℚ
  orderType : String
  status : String
  timestamp : String

/-- Point update of a holdings map. -/
def setHolding (h : String → ℚ) (k : String) (v : ℚ) : String → ℚ :=
  fun x => if x = k then v else h x

/-- `TradingPlatform.executeTrade()` (lines 1918-1982).  Returns the new
portfolio, the new order log and whether the trade executed (`false` = the
function returned early after `showNotification(..., 'error')`, mutating
nothing).  `asset = none` models no selected asset; an `amount` that
parses to NaN or 0 is rejected by `!amount` just like `amount <= 0`, so
the guard is `amount ≤ 0`. -/
def executeTrade (p : Portfolio) (orders : List Order) (action : TradeAction)
    (asset : Option String) (amount price : ℚ) (oid : Nat)
    (orderType ts : String) : Portfolio × List Order × Bool :=
  match asset with
  | none => (p, orders, false)
  | some a =>
    if amount ≤ 0 then (p, orders, false)
    else
      let total := amount * price
      let fee := total * (1/1000)
      let mkOrder : Order :=
        ⟨oid, a, action, amount, price, total, fee, orderType, "completed", ts⟩
      match action with
      | .buy =>
        if p.cash < total + fee then (p, orders, false)
        else
          (⟨p.cash - (total + fee), setHolding p.holdings a (p.holdings a + amount)⟩,
           mkOrder :: orders, true)
      | .sell =>
        if p.holdings a = 0 ∨ p.holdings a < amount then (p, orders, false)
        else
          (⟨p.cash + (total - fee), setHolding p.holdings a (p.holdings a - amount)⟩,
           mkOrder :: orders, true)

/-! ## Alerts (src/unnamed/part_002, class AlertSystem, lines 1235-1520)

Notification, sound and message-formatting side effects are out of scope;
`checkAlerts` is modelled as the pure state transformation on the rule
list plus the list of rules that fired in the pass.  Timestamps are an
abstract `now : Nat`. -/

inductive AlertType | above | below | change_up | change_down
deriving DecidableEq

/-- An alert rule as created by `addAlert` (lines 1267-1282), without the
message/created presentation fields. -/
structure Alert where
  id : Nat
  asset : String
  type : AlertType
  value : ℚ
  active : Bool
  triggered : Bool
  triggeredAt : Option Nat
  triggeredPrice : Option ℚ
deriving DecidableEq

/-- `previousPrices[alert.asset] || currentPrice` (line 1304): an absent
or zero (falsy) previous price is replaced by the current price. -/
def jsPrevPrice (prevOpt : Option ℚ) (currentPrice : ℚ) : ℚ :=
  match prevOpt with
  | some v => if v = 0 then currentPrice else v
  | none => currentPrice

/-- The body of the `forEach` of `checkAlerts` (lines 1300-1352) for one
rule: the updated rule and whether it fired in this pass. -/
def processAlert (now : Nat) (currentPrices previousPrices : String → Option ℚ)
    (a : Alert) : Alert × Bool :=
  if ¬ a.active ∨ a.triggered then (a, false)
  else
    match currentPrices a.asset with
    | none => (a, false)
    | some currentPrice =>
      if currentPrice = 0 then (a, false)
      else
        let previousPrice := jsPrevPrice (previousPrices a.asset) currentPrice
        let shouldTrigger : Bool :=
          match a.type with
          | .above => decide (a.value < currentPrice)
          | .below => decide (currentPrice < a.value)
          | .change_up => decide (a.value ≤ (currentPrice - previousPrice) / previousPrice * 100)
          | .change_down => decide (a.value ≤ (previousPrice - currentPrice) / previousPrice * 100)
        if shouldTrigger then
          ({ a with triggered := true, triggeredAt := some now,
                    triggeredPrice := some currentPrice }, true)
        else (a, false)

/-- `AlertSystem.checkAlerts(currentPrices, previousPrices)`
(lines 1297-1360): the updated rule list and the rules that fired. -/
def checkAlerts (now : Nat) (alerts : List Alert)
    (currentPrices previousPrices : String → Option ℚ) :
    List Alert × List Alert :=
  let processed := alerts.map (processAlert now currentPrices previousPrices)
  (processed.map Prod.fst, (processed.filter (fun r => r.2)).map Prod.fst)

/-- `AlertSystem.resetTriggeredAlerts()` (lines 1468-1477). -/
def resetTriggeredAlerts (alerts : List Alert) : List Alert :=
  alerts.map (fun a =>
    if a.triggered then
      { a with triggered := false, triggeredAt := none, triggeredPrice := none }
    else a)

/-! ## Circuit breaker (src/unnamed/part_002, lines 281-286 and 326-394)

`fetchWithTimeout` is modelled as the breaker transition it performs on
one call: the pre-check of lines 328-334, then `resetCircuitBreaker` on a
successful response or `recordCircuitBreakerFailure` on any error.  The
network outcome of an attempted request is the oracle `ok : Bool`; the
clock is an abstract `now : Nat` (both `Date.now()` reads of one failing
call are the same instant). -/

inductive CBState | CLOSED | OPEN | HALF_OPEN
deriving DecidableEq

/-- The `this.circuitBreaker` record (lines 281-286); `threshold = 5` and
`timeout = 30000` are the constants of the constructor. -/
structure CircuitBreaker where
  failures : Nat
  lastFailure : Nat
  state : CBState
deriving DecidableEq

/-- The fresh breaker of the constructor: 0 failures, CLOSED. -/
def cbInit : CircuitBreaker := ⟨0, 0, .CLOSED⟩

/-- Lines 328-334: in state OPEN, reject (`none`) while
`Date.now() - lastFailure < timeout`, otherwise move to HALF_OPEN and
allow the request; in any other state allow the request unchanged. -/
def cbPreCheck (cb : CircuitBreaker) (now : Nat) : Option CircuitBreaker :=
  match cb.state with
  | .OPEN =>
    if now - cb.lastFailure < 30000 then none
    else some { cb with state := .HALF_OPEN }
  | _ => some cb

/-- `resetCircuitBreaker()` (lines 381-384). -/
def resetCircuitBreaker (cb : CircuitBreaker) : CircuitBreaker :=
  { cb with failures := 0, state := .CLOSED }

/-- `recordCircuitBreakerFailure()` (lines 386-394). -/
def recordCircuitBreakerFailure (cb : CircuitBreaker) (now : Nat) : CircuitBreaker :=
  let f := cb.failures + 1
  { failures := f, lastFailure := now,
    state := if 5 ≤ f then .OPEN else cb.state }

inductive FetchOutcome | rejected | success | failure
deriving DecidableEq

/-- One call through `fetchWithTimeout` (lines 326-379): `rejected` means
the circuit-open error was thrown before any network request; otherwise
the request is issued and `ok` decides between the success path (line 356)
and the catch path (line 376). -/
def fetchAttempt (cb : CircuitBreaker) (now : Nat) (ok : Bool) :
    CircuitBreaker × FetchOutcome :=
  match cbPreCheck cb now with
  | none => (cb, .rejected)
  | some cb1 =>
    if ok then (resetCircuitBreaker cb1, .success)
    else (recordCircuitBreakerFailure cb1 now, .failure)

/-- A run of consecutive failing calls at the given instants. -/
def failRun (cb : CircuitBreaker) (times : List Nat) : CircuitBreaker :=
  times.foldl (fun c t => (fetchAttempt c t false).1) cb

/-! ## Price fetching (src/unnamed/part_002, class UniversalAPI, lines 206-639)

The network is the oracle `net : String → Option ℚ`: for an asset whose
category fetcher issues a request, `net asset` is the
`chart.result[0].meta.regularMarketPrice` field of the response, or `none`
when `fetchWithTimeout` throws (circuit open, network error, non-2xx,
timeout) or the field is absent.  `Math.random()`-driven Big-Mac jitter is
the oracle `jitter : String → ℚ`, the value of `(Math.random() - 0.5) * 0.02`
for that call, so it lies in `[-1/100, 1/100)`.  `lastPrices` is a map
`String → Option ℚ`.

One deliberate divergence: for an inverted forex pair whose raw rate is
exactly 0, JavaScript computes `1/0 = Infinity` and returns it, while over
`ℚ` the inverse is 0 and the validity check fails, falling back to the
last-known price.  Neither behaviour produces a NaN or non-positive entry. -/

inductive AssetCategory | crypto | metal | currency | bigmac
deriving DecidableEq

/-- Association-list lookup with JavaScript property-access semantics
(`table[key]`, `undefined` = `none`). -/
def lookupStr {α : Type} (k : String) : List (String × α) → Option α
  | [] => none
  | (k2, v) :: t => if k = k2 then some v else lookupStr k t

/-- The `this.assets` catalog (lines 212-259), key to category. -/
def assetCatalog : List (String × AssetCategory) :=
  [("btc", .crypto), ("eth", .crypto), ("bnb", .crypto), ("ada", .crypto),
   ("sol", .crypto), ("xrp", .crypto), ("dot", .crypto), ("doge", .crypto),
   ("avax", .crypto), ("matic", .crypto),
   ("gold", .metal), ("silver", .metal), ("platinum", .metal), ("palladium", .metal),
   ("usd_eur", .currency), ("usd_gbp", .currency), ("usd_jpy", .currency),
   ("usd_cad", .currency), ("usd_aud", .currency), ("usd_chf", .currency),
   ("usd_cny", .currency), ("usd_inr", .currency), ("usd_aed", .currency),
   ("usd_bhd", .currency), ("usd_krw", .currency), ("usd_brl", .currency),
   ("usd_mxn", .currency), ("usd_rub", .currency), ("usd_try", .currency),
   ("usd_zar", .currency), ("usd_nok", .currency), ("usd_sek", .currency),
   ("bigmac_us", .bigmac), ("bigmac_uk", .bigmac), ("bigmac_jp", .bigmac),
   ("bigmac_eu", .bigmac), ("bigmac_ca", .bigmac)]

/-- `this.fallbackPrices` (lines 261-272). -/
def fallbackPrices : List (String × ℚ) :=
  [("btc", 43000), ("eth", 2600), ("bnb", 240), ("ada", 0.38), ("sol", 60),
   ("xrp", 0.52), ("dot", 5.2), ("doge", 0.08), ("avax", 12), ("matic", 0.75),
   ("gold", 2050), ("silver", 24.5), ("platinum", 950), ("palladium", 1200),
   ("usd_eur", 0.92), ("usd_gbp", 0.79), ("usd_jpy", 150), ("usd_cad", 1.35),
   ("usd_aud", 1.52), ("usd_chf", 0.88), ("usd_cny", 7.25), ("usd_inr", 83.2),
   ("usd_aed", 3.67), ("usd_bhd", 0.38), ("usd_krw", 1320), ("usd_brl", 5.1),
   ("usd_mxn", 17.8), ("usd_rub", 92), ("usd_try", 29.5), ("usd_zar", 18.7),
   ("usd_nok", 10.8), ("usd_sek", 10.9),
   ("bigmac_us", 5.69), ("bigmac_uk", 4.89), ("bigmac_jp", 450),
   ("bigmac_eu", 5.15), ("bigmac_ca", 6.77)]

/-- The `symbols` table of `fetchCryptoPrice` (lines 432-436). -/
def cryptoSymbols : List (String × String) :=
  [("btc", "BTC-USD"), ("eth", "ETH-USD"), ("bnb", "BNB-USD"), ("ada", "ADA-USD"),
   ("sol", "SOL-USD"), ("xrp", "XRP-USD"), ("dot", "DOT-USD"), ("doge", "DOGE-USD"),
   ("avax", "AVAX-USD"), ("matic", "MATIC-USD")]

/-- The `symbols` table of `fetchMetalPrice` (lines 455-457). -/
def metalSymbols : List (String × String) :=
  [("gold", "GC=F"), ("silver", "SI=F"), ("platinum", "PL=F"), ("palladium", "PA=F")]

/-- The `symbols` table of `fetchForexPrice` (lines 476-480); note that the
world currencies usd_krw/brl/mxn/rub/try/nok/sek are absent, so their
fetches throw `Unsupported forex` and fall back. -/
def forexSymbols : List (String × String) :=
  [("usd_eur", "EURUSD=X"), ("usd_gbp", "GBPUSD=X"), ("usd_jpy", "USDJPY=X"),
   ("usd_cad", "USDCAD=X"), ("usd_aud", "AUDUSD=X"), ("usd_chf", "USDCHF=X"),
   ("usd_cny", "USDCNY=X"), ("usd_inr", "USDINR=X"), ("usd_zar", "USDZAR=X"),
   ("usd_aed", "USDAED=X"), ("usd_bhd", "USDBHD=X")]

/-- The `realPrices` table of `getBigMacPrice` (lines 503-506). -/
def bigmacRealPrices : List (String × ℚ) :=
  [("bigmac_us", 5.69), ("bigmac_uk", 4.89), ("bigmac_jp", 450),
   ("bigmac_eu", 5.15), ("bigmac_ca", 6.77)]

/-- `x || d` on a possibly-undefined number `x`: `undefined` and 0 are
falsy and give `d`. -/
def jsOrQ (o : Option ℚ) (d : ℚ) : ℚ :=
  match o with
  | some v => if v = 0 then d else v
  | none => d

/-- `asset.includes(sub)`. -/
def strContains (s sub : String) : Bool := decide (sub.toList <:+: s.toList)

/-- The inversion test of `fetchForexPrice` (line 490). -/
def forexInverted (asset : String) : Bool :=
  strContains asset "eur" || strContains asset "gbp" || strContains asset "aud"

/-- `fetchCryptoPrice(asset)` (lines 431-452): `none` models a throw
(unsupported symbol, failed request, or invalid price). -/
def fetchCryptoPrice (net : String → Option ℚ) (asset : String) : Option ℚ :=
  match lookupStr asset cryptoSymbols with
  | none => none
  | some _ =>
    match net asset with
    | none => none
    | some price => if 0 < price then some price else none

/-- `fetchMetalPrice(asset)` (lines 454-473). -/
def fetchMetalPrice (net : String → Option ℚ) (asset : String) : Option ℚ :=
  match lookupStr asset metalSymbols with
  | none => none
  | some _ =>
    match net asset with
    | none => none
    | some price => if 0 < price then some price else none

/-- `fetchForexPrice(asset)` (lines 475-500), with the EUR/GBP/AUD pairs
inverted to USD-per-unit before the validity check. -/
def fetchForexPrice (net : String → Option ℚ) (asset : String) : Option ℚ :=
  match lookupStr asset forexSymbols with
  | none => none
  | some _ =>
    match net asset with
    | none => none
    | some raw =>
      let rate := if forexInverted asset then 1 / raw else raw
      if 0 < rate then some rate else none

/-- The `basePrice` of `getBigMacPrice` (line 508):
`realPrices[asset] || this.fallbackPrices[asset] || 5.0`. -/
def bigmacBasePrice (asset : String) : ℚ :=
  jsOrQ (lookupStr asset bigmacRealPrices) (jsOrQ (lookupStr asset fallbackPrices) 5)

/-- `getBigMacPrice(asset)` (lines 502-515): a deterministic-jitter price
`basePrice * (1 + variation)` around the fixed reference, which is also
written into `lastPrices`. -/
def getBigMacPrice (jitter : String → ℚ) (lastPrices : String → Option ℚ)
    (asset : String) : ℚ × (String → Option ℚ) :=
  (bigmacBasePrice asset * (1 + jitter asset),
   fun k => if k = asset then some (bigmacBasePrice asset * (1 + jitter asset))
            else lastPrices k)

/-- `fetchPrice(asset)` (lines 517-538): dispatch on the catalog category;
any throw from the category fetcher is caught and replaced by
`lastPrices[asset] || fallbackPrices[asset] || 0`.  Returns the price and
the (possibly updated, in the Big-Mac case) `lastPrices`. -/
def fetchPrice (net : String → Option ℚ) (jitter : String → ℚ)
    (lastPrices : String → Option ℚ) (asset : String) :
    ℚ × (String → Option ℚ) :=
  match lookupStr asset assetCatalog with
  | none => (jsOrQ (lookupStr asset fallbackPrices) 0, lastPrices)
  | some .crypto =>
    match fetchCryptoPrice net asset with
    | some p => (p, lastPrices)
    | none => (jsOrQ (lastPrices asset) (jsOrQ (lookupStr asset fallbackPrices) 0), lastPrices)
  | some .metal =>
    match fetchMetalPrice net asset with
    | some p => (p, lastPrices)
    | none => (jsOrQ (lastPrices asset) (jsOrQ (lookupStr asset fallbackPrices) 0), lastPrices)
  | some .currency =>
    match fetchForexPrice net asset with
    | some p => (p, lastPrices)
    | none => (jsOrQ (lastPrices asset) (jsOrQ (lookupStr asset fallbackPrices) 0), lastPrices)
  | some .bigmac => getBigMacPrice jitter lastPrices asset

/-- `fetchAllPrices()` (lines 540-555) over the selected asset list:
builds one entry per asset in order (the `catch` in its loop is
unreachable because `fetchPrice` resolves every failure internally),
threading `lastPrices` through the Big-Mac writes. -/
def fetchAllPrices (net : String → Option ℚ) (jitter : String → ℚ)
    (lastPrices : String → Option ℚ) : List String → List (String × ℚ) × (String → Option ℚ)
  | [] => ([], lastPrices)
  | a :: rest =>
    let r := fetchPrice net jitter lastPrices a
    let rec2 := fetchAllPrices net jitter r.2 rest
    ((a, r.1) :: rec2.1, rec2.2)

/-- Every prior known price is nonnegative (a "prior known price" in the
claim is positive; 0 entries fall through `||` to the fallback). -/
def GoodLast (lastPrices : String → Option ℚ) : Prop :=
  ∀ k v, lastPrices k = some v → 0 ≤ v

/-- The Big-Mac jitter `(Math.random() - 0.5) * 0.02` lies in `[-1/100, 1/100)`. -/
def JitterOK (jitter : String → ℚ) : Prop :=
  ∀ k, -(1/100) ≤ jitter k ∧ jitter k < 1/100

/-! ## History persistence (src/unnamed/part_002, class DataStorage, lines 642-740)

`saveHistory`/`loadHistory` persist a serialized history list through the
"compression" of `compress`/`decompress` (lines 651-674): the JSON string
is stripped of every whitespace character (`.replace(/\\s+/g, \x27\x27)`) and the
key tokens `"timestamp"`, `"price"`, `"asset"` are rewritten to `"t"`,
`"p"`, `"a"` and back.  Strings are modelled as `List Char`; `localStorage`
as the `Storage` record below.  History records are modelled by their
`{price, timestamp, asset}` fields (the fields named by the claim and the
only keys the transform rewrites; the remaining presentation fields
`change`, `volume`, `marketCap` of `saveToHistory` are independent of the
claim).  Prices are serialized as decimal integers; `JSON.stringify` on
such records emits no whitespace and, for quote- and backslash-free field
values, no escape sequences, which is the subset `jsonStringifyHistory`
produces and `parseItems` (the model of `JSON.parse` on this shape)
accepts.  `jsWs` covers the ASCII whitespace of `\\s` plus NBSP. -/

/-- One persisted history record, projected to the claim's fields. -/
structure HistItem where
  price : Nat
  timestamp : List Char
  asset : List Char
deriving DecidableEq

/-- The opening brace character. -/
def obrace : Char := Char.ofNat 123

/-- The closing brace character. -/
def cbrace : Char := Char.ofNat 125

/-- JavaScript `\\s` (ASCII part plus NBSP), by code point:
space, tab, LF, VT, FF, CR, NBSP. -/
def jsWs (c : Char) : Bool :=
  c.toNat = 32 || c.toNat = 9 || c.toNat = 10 || c.toNat = 11 ||
  c.toNat = 12 || c.toNat = 13 || c.toNat = 160

/-- `.replace(/\\s+/g, \x27\x27)`: drop every whitespace character. -/
def stripWs (l : List Char) : List Char := l.filter (fun c => !jsWs c)

/-- `String.prototype.replace` with a global literal pattern, fuelled for
structural recursion (the fuel is the input length, always sufficient). -/
def replF (pat rep : List Char) : Nat → List Char → List Char
  | 0, l => l
  | fuel + 1, l =>
    if pat ≠ [] ∧ pat.isPrefixOf l then rep ++ replF pat rep fuel (l.drop pat.length)
    else
      match l with
      | [] => []
      | c :: cs => c :: replF pat rep fuel cs

/-- `s.replace(pat, rep)` with a global literal pattern. -/
def repl (pat rep l : List Char) : List Char := replF pat rep l.length l

/-- The decimal digit character of `d`. -/
def digitChar (d : Nat) : Char := Char.ofNat (48 + d)

/-- Decimal digits of `n`, most significant first, fuelled. -/
def natDigitsF : Nat → Nat → List Char
  | 0, _ => []
  | fuel + 1, n =>
    if n < 10 then [digitChar n]
    else natDigitsF fuel (n / 10) ++ [digitChar (n % 10)]

/-- Decimal digits of `n`, as `JSON.stringify` serializes the number. -/
def natDigits (n : Nat) : List Char := natDigitsF (n + 1) n

/-- A quoted token `"w"`. -/
def qtokC (w : List Char) : List Char := '"' :: w ++ ['"']

/-- The serialization of one record with the given key names, in the
field order of the source object literal (price, timestamp, asset). -/
def itemChars (kp kt ka : List Char) (it : HistItem) : List Char :=
  obrace :: (qtokC kp ++ (':' :: (natDigits it.price ++ (',' ::
    (qtokC kt ++ (':' :: (qtokC it.timestamp ++ (',' ::
    (qtokC ka ++ (':' :: (qtokC it.asset ++ [cbrace])))))))))))

/-- Comma-joined record serializations. -/
def itemsChars (kp kt ka : List Char) : List HistItem → List Char
  | [] => []
  | it :: rest =>
    itemChars kp kt ka it ++
      (match rest with
       | [] => []
       | _ :: _ => ',' :: itemsChars kp kt ka rest)

/-- The serialization of a record list with the given key names. -/
def stringifyItems (kp kt ka : List Char) (l : List HistItem) : List Char :=
  '[' :: itemsChars kp kt ka l ++ [']']

/-- `JSON.stringify(history)` on the modelled record shape. -/
def jsonStringifyHistory (l : List HistItem) : List Char :=
  stringifyItems "price".toList "timestamp".toList "asset".toList l

/-- `DataStorage.compress` (lines 651-662) after `JSON.stringify`: strip
whitespace, then rewrite the three quoted key tokens, in source order. -/
def compressStr (s : List Char) : List Char :=
  repl (qtokC "asset".toList) (qtokC "a".toList)
    (repl (qtokC "price".toList) (qtokC "p".toList)
      (repl (qtokC "timestamp".toList) (qtokC "t".toList) (stripWs s)))

/-- The string transform of `DataStorage.decompress` (lines 664-674)
before `JSON.parse`: restore the three key tokens, in source order. -/
def decompressStr (s : List Char) : List Char :=
  repl (qtokC "a".toList) (qtokC "asset".toList)
    (repl (qtokC "p".toList) (qtokC "price".toList)
      (repl (qtokC "t".toList) (qtokC "timestamp".toList) s))

/-- Numeric value of a digit character. -/
def digitVal (c : Char) : Nat := c.toNat - 48

/-- Accumulating decimal value of a digit string. -/
def digitsVal (acc : Nat) : List Char → Nat
  | [] => acc
  | c :: cs => digitsVal (acc * 10 + digitVal c) cs

/-- Decimal-digit test (code points 48-57), the digit class of the JSON
number grammar. -/
def isDigitC (c : Char) : Bool := 48 ≤ c.toNat && c.toNat ≤ 57

/-- Parse a nonempty run of digits. -/
def parseNatTok (cs : List Char) : Option (Nat × List Char) :=
  let ds := cs.takeWhile isDigitC
  if ds.isEmpty then none
  else some (digitsVal 0 ds, cs.dropWhile isDigitC)

/-- Parse an (escape-free) string body up to the closing quote. -/
def parseStrTok (cs : List Char) : Option (List Char × List Char) :=
  match cs.dropWhile (fun c => c ≠ '"') with
  | '"' :: rest => some (cs.takeWhile (fun c => c ≠ '"'), rest)
  | _ => none

/-- Require a literal token and consume it. -/
def expectTok (pat cs : List Char) : Option (List Char) :=
  if pat.isPrefixOf cs then some (cs.drop pat.length) else none

/-- Parse one serialized record (long key names, fixed key order). -/
def parseItem (cs : List Char) : Option (HistItem × List Char) :=
  (expectTok (obrace :: (qtokC "price".toList ++ [':'])) cs).bind fun cs1 =>
  (parseNatTok cs1).bind fun pr =>
  (expectTok (',' :: (qtokC "timestamp".toList ++ [':', '"'])) pr.2).bind fun cs3 =>
  (parseStrTok cs3).bind fun ts =>
  (expectTok (',' :: (qtokC "asset".toList ++ [':', '"'])) ts.2).bind fun cs5 =>
  (parseStrTok cs5).bind fun asv =>
  (expectTok [cbrace] asv.2).bind fun cs7 =>
  some (⟨pr.1, ts.1, asv.1⟩, cs7)

/-- Parse a comma-separated record sequence up to the closing bracket. -/
def parseItemsAux : Nat → List Char → Option (List HistItem × List Char)
  | 0, _ => none
  | fuel + 1, cs =>
    (parseItem cs).bind fun r =>
    match r.2 with
    | ',' :: rest => (parseItemsAux fuel rest).bind fun r2 => some (r.1 :: r2.1, r2.2)
    | ']' :: rest => some ([r.1], rest)
    | _ => none

/-- `JSON.parse` on the serialized shape of `jsonStringifyHistory`
(an error, i.e. a throw, is `none`). -/
def parseItems (cs : List Char) : Option (List HistItem) :=
  match cs with
  | '[' :: rest =>
    if rest = [']'] then some []
    else
      (parseItemsAux (rest.length + 1) rest).bind fun r =>
      if r.2.isEmpty then some r.1 else none
  | _ => none

/-- The localStorage regions `DataStorage` touches: the per-asset history
blobs (key `priceHistory_<asset>`, modelled by the suffix) and the
`historyIndex` list. -/
structure Storage where
  hist : String → Option (List Char)
  index : List String

/-- `DataStorage.saveHistory(history, asset)` (lines 676-689):
`history.slice(0, maxHistoryItems)` with `maxHistoryItems = 10000`,
compressed and stored under the asset's key, plus `updateHistoryIndex`
(lines 704-715); the storage model cannot throw, so the catch path is
unreachable. -/
def saveHistory (st : Storage) (history : List HistItem) (asset : String) : Storage :=
  { hist := fun k =>
      if k = "priceHistory_" ++ asset
      then some (compressStr (jsonStringifyHistory (history.take 10000)))
      else st.hist k,
    index := if asset ∈ st.index then st.index else st.index ++ [asset] }

/-- `DataStorage.loadHistory(asset)` (lines 691-702), with the inner catch
of `decompress` (line 672: on a parse failure, re-parse the raw blob) and
the outer catch returning `[]`. -/
def loadHistory (st : Storage) (asset : String) : List HistItem :=
  match st.hist ("priceHistory_" ++ asset) with
  | none => []
  | some s =>
    match parseItems (decompressStr s) with
    | some l => l
    | none => (parseItems s).getD []

/-- A character that survives the persistence transform verbatim: not
whitespace, not a quote, not a backslash, not a control character. -/
def safeChar (c : Char) : Bool :=
  !jsWs c && c.toNat ≠ 34 && c.toNat ≠ 92 && 32 ≤ c.toNat

/-- The six quoted tokens the key substitution rewrites. -/
def tokenWords : List (List Char) :=
  ["t".toList, "p".toList, "a".toList,
   "timestamp".toList, "price".toList, "asset".toList]

/-- A string field untouched by the transform: safe characters only and
not itself one of the rewritten tokens. -/
def safeField (w : List Char) : Prop := (∀ c ∈ w, safeChar c) ∧ w ∉ tokenWords

/-- A record whose string fields round-trip exactly. -/
def safeItem (it : HistItem) : Prop := safeField it.timestamp ∧ safeField it.asset

/-- The concrete record of the counterexample: its timestamp, a
`toLocaleString()`-style date, contains spaces. -/
def c1SampleItem : HistItem := ⟨5, "1/1/2024, 10:00 AM".toList, "btc".toList⟩

/-- An empty localStorage. -/
def c1EmptyStore : Storage := ⟨fun _ => none, []⟩

/-! ## Theorems -/

/-- The valid sublist is never longer than the input. -/
theorem jsValid_length_le (prices : List ℚ) : (jsValid prices).length ≤ prices.length :=
  List.length_filter_le _ _

/-- Claim C9: `calculateMovingAverage` returns `null` whenever fewer than
`period` valid (truthy, non-NaN) entries exist — never a partial average —
and otherwise the arithmetic mean of the first `period` valid entries.
Stated as: the code equals the function read off the spec sentence,
at every input. -/
theorem c9_sma_spec (prices : List ℚ) (period : Nat) :
    calculateMovingAverage prices period = specSMA prices period := by
  unfold calculateMovingAverage specSMA
  by_cases h1 : prices.length < period
  · have hf : (jsValid prices).length < period :=
      lt_of_le_of_lt (jsValid_length_le prices) h1
    simp [h1, hf]
  · simp only [h1, if_false]
    by_cases h2 : (jsValid prices).length < period
    · have ht : ((jsValid prices).take period).length < period := by
        rw [List.length_take]
        omega
      simp [h2, ht]
    · have ht : ((jsValid prices).take period).length = period := by
        rw [List.length_take]
        omega
      simp [h2, ht]

/-- Claim C8 counterexample: on the newest-first list `[1, 2, 3]` with
`period = 2` the code folds from the newest entry towards the oldest
(result `23/9`), while the spec's chronological EMA — seeded with the
oldest value and iterated oldest-to-newest — gives `13/9`.  The claim as
stated is therefore false. -/
theorem c8_ema_counterexample :
    calculateEMA [1, 2, 3] 2 = some (23/9) ∧ specEMA [1, 2, 3] 2 = some (13/9) ∧
    calculateEMA [1, 2, 3] 2 ≠ specEMA [1, 2, 3] 2 := by
  have h1 : calculateEMA [1, 2, 3] 2 = some (23/9) := by
    norm_num [calculateEMA, jsValid, emaStep, List.filter, List.foldl]
  have h2 : specEMA [1, 2, 3] 2 = some (13/9) := by
    norm_num [specEMA, jsValid, emaStep, List.filter, List.foldl]
  refine ⟨h1, h2, ?_⟩
  rw [h1, h2]
  norm_num

/-- Claim C8 as amended: `calculateEMA` uses the smoothing factor
`2/(period+1)` over the valid entries, but it is seeded with the first
(newest) element of the newest-first input and iterated towards the
oldest; equivalently, it computes the spec's chronological EMA of the
time-reversed sequence: `calculateEMA ps period = specEMA ps.reverse period`
for every input. -/
theorem c8_ema_amended (prices : List ℚ) (period : Nat) :
    calculateEMA prices period = specEMA prices.reverse period := by
  unfold calculateEMA specEMA
  have hv : jsValid prices.reverse = (jsValid prices).reverse := by
    unfold jsValid
    exact List.filter_reverse _ _
  simp [hv, List.length_reverse, List.reverse_reverse]

/-- A list with no zero entry is its own valid sublist. -/
theorem jsValid_eq_self {prices : List ℚ} (h : ∀ x ∈ prices, x ≠ 0) :
    jsValid prices = prices := by
  unfold jsValid
  exact List.filter_eq_self.mpr (fun a ha => by simpa using h a ha)

theorem rsiChanges_nil : rsiChanges [] = [] := rfl

theorem rsiChanges_single (a : ℚ) : rsiChanges [a] = [] := rfl

theorem rsiChanges_cons (a b : ℚ) (t : List ℚ) :
    rsiChanges (a :: b :: t) = (b - a) :: rsiChanges (b :: t) := rfl

theorem rsiChanges_length (w : List ℚ) : (rsiChanges w).length = w.length - 1 := by
  unfold rsiChanges
  rw [List.length_zipWith, List.length_tail]
  omega

/-- On a strictly decreasing list (newest-first history of a series that
rises over time) every consecutive change of `calculateRSI`'s loop is
negative. -/
theorem rsiChanges_neg {w : List ℚ} (h : List.Chain' (fun a b => b < a) w) :
    ∀ c ∈ rsiChanges w, c < 0 := by
  induction w with
  | nil => simp [rsiChanges_nil]
  | cons a t ih =>
    cases t with
    | nil => simp [rsiChanges_single]
    | cons b t2 =>
      rw [List.chain'_cons] at h
      intro c hc
      rw [rsiChanges_cons] at hc
      rcases List.mem_cons.mp hc with rfl | hc2
      · linarith [h.1]
      · exact ih h.2 c hc2

/-- On a nondecreasing list every consecutive change is nonnegative. -/
theorem rsiChanges_nonneg {w : List ℚ} (h : List.Chain' (fun a b => a ≤ b) w) :
    ∀ c ∈ rsiChanges w, 0 ≤ c := by
  induction w with
  | nil => simp [rsiChanges_nil]
  | cons a t ih =>
    cases t with
    | nil => simp [rsiChanges_single]
    | cons b t2 =>
      rw [List.chain'_cons] at h
      intro c hc
      rw [rsiChanges_cons] at hc
      rcases List.mem_cons.mp hc with rfl | hc2
      · linarith [h.1]
      · exact ih h.2 c hc2

/-- Claim C2 counterexample: `[15, 14, ..., 1]` is a newest-first price
sequence of length `period + 1 = 15` that rises strictly over time
(newest = 15), yet `calculateRSI` returns 0, not the claimed 100: the loop
takes differences in array order, which on newest-first input is
newest-to-oldest, so a rise over time is all losses. -/
theorem c2_rsi_counterexample :
    calculateRSI [15, 14, 13, 12, 11, 10, 9, 8, 7, 6, 5, 4, 3, 2, 1] 14 = some 0 ∧
    calculateRSI [15, 14, 13, 12, 11, 10, 9, 8, 7, 6, 5, 4, 3, 2, 1] 14 ≠ some 100 := by
  have h : calculateRSI [15, 14, 13, 12, 11, 10, 9, 8, 7, 6, 5, 4, 3, 2, 1] 14 = some 0 := by
    norm_num [calculateRSI, jsValid, jsRound, rsiChanges, rsiGains, rsiLosses,
      List.filter, List.zipWith, List.take]
  refine ⟨h, ?_⟩
  rw [h]
  norm_num

/-- Claim C2 as amended: because `calculateRSI` walks the newest-first
array in index order, a sequence that rises strictly over time (strictly
decreasing array) of length ≥ period+1 with all entries valid yields
RSI 0, a sequence that falls (weakly) over time (nondecreasing array)
yields RSI 100, and in particular RSI is 100 whenever the average loss of
the walked window is 0 (the nondecreasing case is exactly average loss 0). -/
theorem c2_rsi_amended (prices : List ℚ) (period : Nat) :
    (0 < period → period + 1 ≤ prices.length → (∀ x ∈ prices, x ≠ 0) →
      List.Chain' (fun a b => b < a) prices → calculateRSI prices period = some 0) ∧
    (period + 1 ≤ prices.length → (∀ x ∈ prices, x ≠ 0) →
      List.Chain' (fun a b => a ≤ b) prices → calculateRSI prices period = some 100) := by
  constructor
  · intro hp hlen hnz hchain
    have hv : jsValid prices = prices := jsValid_eq_self hnz
    have hg1 : ¬ (prices.length < period + 1) := by omega
    unfold calculateRSI
    simp only [hv, hg1, if_false]
    have hchw : List.Chain' (fun a b => b < a) (prices.take (period + 1)) :=
      hchain.take _
    have hneg := rsiChanges_neg hchw
    have hlw : (prices.take (period + 1)).length = period + 1 := by
      rw [List.length_take]
      omega
    have hchlen : (rsiChanges (prices.take (period + 1))).length = period := by
      rw [rsiChanges_length, hlw]
      omega
    have hne : rsiChanges (prices.take (period + 1)) ≠ [] := by
      intro hx
      rw [hx] at hchlen
      simp at hchlen
      omega
    have hgains : rsiGains (rsiChanges (prices.take (period + 1))) = 0 := by
      unfold rsiGains
      have hnil : (rsiChanges (prices.take (period + 1))).filter (fun c => decide (0 < c)) = [] := by
        refine List.filter_eq_nil_iff.mpr (fun c hc => ?_)
        simpa using not_lt.mpr (le_of_lt (hneg c hc))
      rw [hnil]
      rfl
    have hlosses : 0 < rsiLosses (rsiChanges (prices.take (period + 1))) := by
      unfold rsiLosses
      have hfe : (rsiChanges (prices.take (period + 1))).filter (fun c => decide (¬ 0 < c))
          = rsiChanges (prices.take (period + 1)) := by
        refine List.filter_eq_self.mpr (fun c hc => ?_)
        simpa using not_lt.mpr (le_of_lt (hneg c hc))
      rw [hfe]
      refine List.sum_pos _ (fun x hx => ?_) ?_
      · rcases List.mem_map.mp hx with ⟨c, hc, rfl⟩
        have := hneg c hc
        linarith
      · simpa using hne
    have havgLoss : rsiLosses (rsiChanges (prices.take (period + 1))) / (period : ℚ) ≠ 0 := by
      refine div_ne_zero (ne_of_gt hlosses) ?_
      exact_mod_cast (by omega : period ≠ 0)
    simp only [hgains, havgLoss, if_neg havgLoss, zero_div]
    norm_num [jsRound]
  · intro hlen hnz hchain
    have hv : jsValid prices = prices := jsValid_eq_self hnz
    have hg1 : ¬ (prices.length < period + 1) := by omega
    unfold calculateRSI
    simp only [hv, hg1, if_false]
    have hchw : List.Chain' (fun a b => a ≤ b) (prices.take (period + 1)) :=
      hchain.take _
    have hnn := rsiChanges_nonneg hchw
    have hlosses : rsiLosses (rsiChanges (prices.take (period + 1))) = 0 := by
      unfold rsiLosses
      refine List.sum_eq_zero (fun x hx => ?_)
      rcases List.mem_map.mp hx with ⟨c, hc, rfl⟩
      rcases List.mem_filter.mp hc with ⟨hcmem, hcpred⟩
      have h1 := hnn c hcmem
      have h2 : ¬ 0 < c := by simpa using hcpred
      have : c = 0 := le_antisymm (not_lt.mp h2) h1
      rw [this]
      ring
    simp [hlosses]

/-- Witness for the amended C2 theorem at concrete inputs: a strict rise
over time ends at RSI 0, a strict fall over time at RSI 100. -/
theorem c2_rsi_amended_witness :
    calculateRSI [15, 14, 13, 12, 11, 10, 9, 8, 7, 6, 5, 4, 3, 2, 1] 14 = some 0 ∧
    calculateRSI [1, 2, 3, 4, 5, 6, 7, 8, 9, 10, 11, 12, 13, 14, 15] 14 = some 100 := by
  constructor
  · exact (c2_rsi_amended [15, 14, 13, 12, 11, 10, 9, 8, 7, 6, 5, 4, 3, 2, 1] 14).1
      (by norm_num) (by norm_num) (by decide)
      (by norm_num [List.chain'_cons, List.chain'_singleton])
  · exact (c2_rsi_amended [1, 2, 3, 4, 5, 6, 7, 8, 9, 10, 11, 12, 13, 14, 15] 14).2
      (by norm_num) (by decide)
      (by norm_num [List.chain'_cons, List.chain'_singleton])

/-- Claim C4: buying 1 unit of btc at price 43000 with fee rate 0.001 from
cash 50000 leaves cash `50000 - 43000·1.001 = 6957`, holdings of btc
equal to 1, and adds exactly one order record to the (empty) order log. -/
theorem c4_buy_execution :
    (executeTrade ⟨50000, fun _ => 0⟩ [] .buy (some "btc") 1 43000 0 "market" "t0").1.cash
        = 6957 ∧
    (executeTrade ⟨50000, fun _ => 0⟩ [] .buy (some "btc") 1 43000 0 "market"
        "t0").1.holdings "btc" = 1 ∧
    (executeTrade ⟨50000, fun _ => 0⟩ [] .buy (some "btc") 1 43000 0 "market"
        "t0").2.1.length = 0 + 1 ∧
    (executeTrade ⟨50000, fun _ => 0⟩ [] .buy (some "btc") 1 43000 0 "market"
        "t0").2.2 = true := by
  norm_num [executeTrade, setHolding]

/-- Claim C5: `executeTrade` preserves nonnegativity of every holding, and
a rejected trade (insufficient funds on a buy, insufficient holdings on a
sell, no asset, or a non-positive amount) leaves the portfolio and the
order log exactly as they were and records no order. -/
theorem c5_trade_invariant (p : Portfolio) (orders : List Order)
    (action : TradeAction) (asset : Option String) (amount price : ℚ)
    (oid : Nat) (orderType ts : String)
    (hh : ∀ k, 0 ≤ p.holdings k) :
    (∀ k, 0 ≤ (executeTrade p orders action asset amount price oid orderType ts).1.holdings k) ∧
    ((executeTrade p orders action asset amount price oid orderType ts).2.2 = false →
      (executeTrade p orders action asset amount price oid orderType ts).1 = p ∧
      (executeTrade p orders action asset amount price oid orderType ts).2.1 = orders) := by
  rcases asset with _ | a
  · exact ⟨hh, fun _ => ⟨rfl, rfl⟩⟩
  · simp only [executeTrade]
    by_cases hle : amount ≤ 0
    · rw [if_pos hle]
      exact ⟨hh, fun _ => ⟨rfl, rfl⟩⟩
    · rw [if_neg hle]
      have hamt : 0 < amount := not_le.mp hle
      rcases action with _ | _
      · by_cases hcash : p.cash < amount * price + amount * price * (1/1000)
        · rw [if_pos hcash]
          exact ⟨hh, fun _ => ⟨rfl, rfl⟩⟩
        · rw [if_neg hcash]
          refine ⟨fun k => ?_, fun hfalse => by simp at hfalse⟩
          show 0 ≤ setHolding p.holdings a (p.holdings a + amount) k
          unfold setHolding
          by_cases hk : k = a
          · rw [if_pos hk]
            have := hh a
            linarith
          · rw [if_neg hk]
            exact hh k
      · by_cases hhold : p.holdings a = 0 ∨ p.holdings a < amount
        · rw [if_pos hhold]
          exact ⟨hh, fun _ => ⟨rfl, rfl⟩⟩
        · rw [if_neg hhold]
          refine ⟨fun k => ?_, fun hfalse => by simp at hfalse⟩
          show 0 ≤ setHolding p.holdings a (p.holdings a - amount) k
          unfold setHolding
          push_neg at hhold
          by_cases hk : k = a
          · rw [if_pos hk]
            linarith [hhold.2]
          · rw [if_neg hk]
            exact hh k

/-- Witness for C5 at a concrete rejected sell: selling 2 btc while
holding 0 of it changes nothing. -/
theorem c5_trade_invariant_witness :
    (∀ k, 0 ≤ (executeTrade ⟨100, fun _ => 0⟩ [] .sell (some "btc") 2 43000 0 "market" "t0").1.holdings k) ∧
    ((executeTrade ⟨100, fun _ => 0⟩ [] .sell (some "btc") 2 43000 0 "market" "t0").2.2 = false →
      (executeTrade ⟨100, fun _ => 0⟩ [] .sell (some "btc") 2 43000 0 "market" "t0").1 = ⟨100, fun _ => 0⟩ ∧
      (executeTrade ⟨100, fun _ => 0⟩ [] .sell (some "btc") 2 43000 0 "market" "t0").2.1 = []) :=
  c5_trade_invariant ⟨100, fun _ => 0⟩ [] .sell (some "btc") 2 43000 0 "market" "t0"
    (fun _ => le_refl 0)

/-- Claim C6: an `above` rule with threshold 100 evaluated against the
successive prices 90, 95, 105 fires exactly once, at 105, and a further
pass at 105 does not fire again; in general a rule whose `triggered` flag
is set is skipped by `checkAlerts` (it never fires and is returned
unchanged) until `resetTriggeredAlerts` clears the flag of every
triggered rule. -/
theorem c6_alert_trigger_once :
    (let a0 : Alert := ⟨1, "btc", .above, 100, true, false, none, none⟩
     let cur := fun (p : ℚ) (k : String) => if k = "btc" then some p else none
     let r1 := checkAlerts 0 [a0] (cur 90) (fun _ => none)
     let r2 := checkAlerts 1 r1.1 (cur 95) (cur 90)
     let r3 := checkAlerts 2 r2.1 (cur 105) (cur 95)
     let r4 := checkAlerts 3 r3.1 (cur 105) (cur 105)
     r1.2 = [] ∧ r2.2 = [] ∧ r3.2.length = 1 ∧ r4.2 = []) ∧
    (∀ (now : Nat) (cur prev : String → Option ℚ) (a : Alert),
      a.triggered = true → processAlert now cur prev a = (a, false)) ∧
    (∀ (alerts : List Alert) (a : Alert),
      a ∈ resetTriggeredAlerts alerts → a.triggered = false) := by
  refine ⟨?_, ?_, ?_⟩
  · norm_num [checkAlerts, processAlert, jsPrevPrice]
  · intro now cur prev a h
    simp [processAlert, h]
  · intro alerts a ha
    rcases List.mem_map.mp ha with ⟨x, _, rfl⟩
    by_cases hxt : x.triggered <;> simp [hxt]

/-- Witness for C6: a rule whose flag is already set is returned unchanged
and does not fire, and resetting a triggered rule clears its flag. -/
theorem c6_alert_trigger_once_witness :
    processAlert 5 (fun _ => some 105) (fun _ => none)
      ⟨1, "btc", .above, 100, true, true, some 2, some 105⟩ =
      (⟨1, "btc", .above, 100, true, true, some 2, some 105⟩, false) ∧
    ((⟨1, "btc", .above, 100, true, false, none, none⟩ : Alert).triggered = false) := by
  constructor
  · exact c6_alert_trigger_once.2.1 5 (fun _ => some 105) (fun _ => none)
      ⟨1, "btc", .above, 100, true, true, some 2, some 105⟩ rfl
  · exact c6_alert_trigger_once.2.2
      [⟨1, "btc", .above, 100, true, true, some 2, some 105⟩]
      ⟨1, "btc", .above, 100, true, false, none, none⟩
      (by simp [resetTriggeredAlerts])

/-- Claim C10: for a percent-change rule (`change_up` or `change_down`)
with a strictly positive threshold, an asset absent from `previousPrices`
(or recorded there as 0) makes `previousPrice` fall back to the current
price, the computed change is 0, and the rule does not fire in that pass
(and the division is by the nonzero current price, not by zero). -/
theorem c10_pct_alert_no_previous (now : Nat) (cur prev : String → Option ℚ)
    (a : Alert) (htype : a.type = .change_up ∨ a.type = .change_down)
    (hval : 0 < a.value)
    (hprev : prev a.asset = none ∨ prev a.asset = some 0) :
    (∀ cp : ℚ, jsPrevPrice (prev a.asset) cp = cp) ∧
    processAlert now cur prev a = (a, false) := by
  have hpp : ∀ cp : ℚ, jsPrevPrice (prev a.asset) cp = cp := by
    intro cp
    rcases hprev with h | h <;> simp [jsPrevPrice, h]
  refine ⟨hpp, ?_⟩
  simp only [processAlert]
  by_cases hact : ¬ a.active ∨ a.triggered
  · rw [if_pos hact]
  · rw [if_neg hact]
    cases hcur : cur a.asset with
    | none => rfl
    | some cp =>
      by_cases hcp : cp = 0
      · simp [hcp]
      · rcases htype with h | h <;>
          simp [h, hcp, hpp cp, sub_self, zero_div, zero_mul, not_le.mpr hval]

/-- Witness for C10 at a concrete input: a `change_up` rule on an asset
with no recorded previous price does not fire even though the current
price is present and positive. -/
theorem c10_pct_alert_no_previous_witness :
    (∀ cp : ℚ, jsPrevPrice ((fun (_ : String) => (none : Option ℚ)) "btc") cp = cp) ∧
    processAlert 7 (fun _ => some 44000) (fun _ => none)
      ⟨2, "btc", .change_up, 5, true, false, none, none⟩ =
      (⟨2, "btc", .change_up, 5, true, false, none, none⟩, false) :=
  c10_pct_alert_no_previous 7 (fun _ => some 44000) (fun _ => none)
    ⟨2, "btc", .change_up, 5, true, false, none, none⟩
    (Or.inl rfl) (by norm_num) (Or.inl rfl)

/-- Claim C3: the breaker is a three-state machine: five consecutive
recorded failures starting from the fresh breaker leave it OPEN (with
`failures = 5` and `lastFailure` the instant of the fifth failure); while
OPEN, a call within 30000 ms of the last failure is rejected with the
breaker untouched and independently of any network outcome (no request is
issued); a call once the window has elapsed passes the pre-check in state
HALF_OPEN and is attempted; and any attempted call that succeeds resets
`failures` to 0 and the state to CLOSED. -/
theorem c3_circuit_breaker :
    (∀ t1 t2 t3 t4 t5 : Nat,
      failRun cbInit [t1, t2, t3, t4, t5] = ⟨5, t5, .OPEN⟩) ∧
    (∀ (cb : CircuitBreaker) (now : Nat) (ok : Bool), cb.state = .OPEN →
      now - cb.lastFailure < 30000 → fetchAttempt cb now ok = (cb, .rejected)) ∧
    (∀ (cb : CircuitBreaker) (now : Nat), cb.state = .OPEN →
      ¬ now - cb.lastFailure < 30000 →
      cbPreCheck cb now = some { cb with state := .HALF_OPEN }) ∧
    (∀ (cb : CircuitBreaker) (now : Nat) (cb1 : CircuitBreaker),
      cbPreCheck cb now = some cb1 →
      fetchAttempt cb now true = ({ cb1 with failures := 0, state := .CLOSED }, .success)) := by
  refine ⟨?_, ?_, ?_, ?_⟩
  · intro t1 t2 t3 t4 t5
    simp [failRun, fetchAttempt, cbPreCheck, recordCircuitBreakerFailure, cbInit]
  · intro cb now ok hstate hlt
    simp [fetchAttempt, cbPreCheck, hstate, hlt]
  · intro cb now hstate hlt
    simp [cbPreCheck, hstate, hlt]
  · intro cb now cb1 hpre
    simp [fetchAttempt, hpre, resetCircuitBreaker]

/-- Witness for C3 at concrete instants: five failures at t = 10..50 open
the breaker; at t = 1000 (within the 30 s window) a call is rejected even
if the network would have answered; at t = 40000 the pre-check moves to
HALF_OPEN, and a successful probe closes the breaker with 0 failures. -/
theorem c3_circuit_breaker_witness :
    failRun cbInit [10, 20, 30, 40, 50] = ⟨5, 50, .OPEN⟩ ∧
    fetchAttempt ⟨5, 50, .OPEN⟩ 1000 true = (⟨5, 50, .OPEN⟩, .rejected) ∧
    cbPreCheck ⟨5, 50, .OPEN⟩ 40000 = some ⟨5, 50, .HALF_OPEN⟩ ∧
    fetchAttempt ⟨5, 50, .OPEN⟩ 40000 true = (⟨0, 50, .CLOSED⟩, .success) := by
  refine ⟨c3_circuit_breaker.1 10 20 30 40 50,
    c3_circuit_breaker.2.1 ⟨5, 50, .OPEN⟩ 1000 true rfl (by norm_num),
    c3_circuit_breaker.2.2.1 ⟨5, 50, .OPEN⟩ 40000 rfl (by norm_num),
    c3_circuit_breaker.2.2.2 ⟨5, 50, .OPEN⟩ 40000 ⟨5, 50, .HALF_OPEN⟩
      (c3_circuit_breaker.2.2.1 ⟨5, 50, .OPEN⟩ 40000 rfl (by norm_num))⟩

/-- A successful `lookupStr` means the pair is in the table. -/
theorem lookupStr_mem {α : Type} {k : String} {v : α} :
    ∀ {l : List (String × α)}, lookupStr k l = some v → (k, v) ∈ l := by
  intro l
  induction l with
  | nil => intro h; simp [lookupStr] at h
  | cons p t ih =>
    rcases p with ⟨k2, v2⟩
    intro h
    simp only [lookupStr] at h
    by_cases hk : k = k2
    · rw [if_pos hk] at h
      injection h with h2
      subst hk
      subst h2
      exact List.mem_cons_self _ _
    · rw [if_neg hk] at h
      exact List.mem_cons_of_mem _ (ih h)

/-- Every catalog asset has a strictly positive catalog fallback price. -/
theorem fallback_pos : ∀ pr ∈ assetCatalog, 0 < jsOrQ (lookupStr pr.1 fallbackPrices) 0 := by
  intro pr hpr
  fin_cases hpr <;> simp [lookupStr, fallbackPrices, assetCatalog, jsOrQ] <;> norm_num

/-- Every Big-Mac catalog asset has a strictly positive base price. -/
theorem bigmac_base_pos : ∀ pr ∈ assetCatalog, pr.2 = AssetCategory.bigmac →
    0 < bigmacBasePrice pr.1 := by
  intro pr hpr
  fin_cases hpr <;>
    simp [bigmacBasePrice, lookupStr, bigmacRealPrices, fallbackPrices, assetCatalog,
      jsOrQ] <;> norm_num

/-- `x || d` is positive when every `some` value of `x` is nonnegative and
`d` is positive. -/
theorem jsOrQ_pos {o : Option ℚ} {d : ℚ} (ho : ∀ v, o = some v → 0 ≤ v)
    (hd : 0 < d) : 0 < jsOrQ o d := by
  cases o with
  | none => exact hd
  | some v =>
    by_cases hv : v = 0
    · simp [jsOrQ, hv, hd]
    · have := ho v rfl
      simp only [jsOrQ, if_neg hv]
      exact lt_of_le_of_ne this (Ne.symm hv)

/-- A crypto fetch only resolves with a strictly positive price. -/
theorem fetchCryptoPrice_pos {net : String → Option ℚ} {a : String} {p : ℚ}
    (h : fetchCryptoPrice net a = some p) : 0 < p := by
  unfold fetchCryptoPrice at h
  split at h
  · exact absurd h (by simp)
  · split at h
    · exact absurd h (by simp)
    · split at h
      · rename_i hp
        injection h with h2
        rwa [← h2]
      · exact absurd h (by simp)

/-- A metal fetch only resolves with a strictly positive price. -/
theorem fetchMetalPrice_pos {net : String → Option ℚ} {a : String} {p : ℚ}
    (h : fetchMetalPrice net a = some p) : 0 < p := by
  unfold fetchMetalPrice at h
  split at h
  · exact absurd h (by simp)
  · split at h
    · exact absurd h (by simp)
    · split at h
      · rename_i hp
        injection h with h2
        rwa [← h2]
      · exact absurd h (by simp)

/-- A forex fetch only resolves with a strictly positive rate. -/
theorem fetchForexPrice_pos {net : String → Option ℚ} {a : String} {p : ℚ}
    (h : fetchForexPrice net a = some p) : 0 < p := by
  unfold fetchForexPrice at h
  split at h
  · exact absurd h (by simp)
  · split at h
    · exact absurd h (by simp)
    · rename_i raw hnet
      dsimp only at h
      by_cases hp : 0 < (if forexInverted a = true then 1 / raw else raw)
      · rw [if_pos hp] at h
        injection h with h2
        rw [← h2]
        exact hp
      · rw [if_neg hp] at h
        exact absurd h (by simp)

/-- `1 + jitter` is positive under the Big-Mac jitter bound. -/
theorem jitter_factor_pos {jitter : String → ℚ} (hj : JitterOK jitter) (a : String) :
    0 < 1 + jitter a := by
  have h := (hj a).1
  linarith

/-- `fetchPrice` on a crypto catalog asset reduces to the crypto branch. -/
theorem fetchPrice_eq_crypto {net : String → Option ℚ} {jitter : String → ℚ}
    {lastPrices : String → Option ℚ} {a : String}
    (hc : lookupStr a assetCatalog = some AssetCategory.crypto) :
    fetchPrice net jitter lastPrices a =
      match fetchCryptoPrice net a with
      | some p => (p, lastPrices)
      | none => (jsOrQ (lastPrices a) (jsOrQ (lookupStr a fallbackPrices) 0), lastPrices) := by
  unfold fetchPrice
  rw [hc]

/-- `fetchPrice` on a metal catalog asset reduces to the metal branch. -/
theorem fetchPrice_eq_metal {net : String → Option ℚ} {jitter : String → ℚ}
    {lastPrices : String → Option ℚ} {a : String}
    (hc : lookupStr a assetCatalog = some AssetCategory.metal) :
    fetchPrice net jitter lastPrices a =
      match fetchMetalPrice net a with
      | some p => (p, lastPrices)
      | none => (jsOrQ (lastPrices a) (jsOrQ (lookupStr a fallbackPrices) 0), lastPrices) := by
  unfold fetchPrice
  rw [hc]

/-- `fetchPrice` on a currency catalog asset reduces to the forex branch. -/
theorem fetchPrice_eq_currency {net : String → Option ℚ} {jitter : String → ℚ}
    {lastPrices : String → Option ℚ} {a : String}
    (hc : lookupStr a assetCatalog = some AssetCategory.currency) :
    fetchPrice net jitter lastPrices a =
      match fetchForexPrice net a with
      | some p => (p, lastPrices)
      | none => (jsOrQ (lastPrices a) (jsOrQ (lookupStr a fallbackPrices) 0), lastPrices) := by
  unfold fetchPrice
  rw [hc]

/-- `fetchPrice` on a Big-Mac catalog asset reduces to `getBigMacPrice`. -/
theorem fetchPrice_eq_bigmac {net : String → Option ℚ} {jitter : String → ℚ}
    {lastPrices : String → Option ℚ} {a : String}
    (hc : lookupStr a assetCatalog = some AssetCategory.bigmac) :
    fetchPrice net jitter lastPrices a = getBigMacPrice jitter lastPrices a := by
  unfold fetchPrice
  rw [hc]

/-- `fetchPrice` returns a strictly positive price for every catalog asset,
given nonnegative prior known prices and the jitter bound. -/
theorem fetchPrice_pos {net : String → Option ℚ} {jitter : String → ℚ}
    {lastPrices : String → Option ℚ} {a : String} {ty : AssetCategory}
    (hj : JitterOK jitter) (hl : GoodLast lastPrices)
    (hc : lookupStr a assetCatalog = some ty) :
    0 < (fetchPrice net jitter lastPrices a).1 := by
  have hmem := lookupStr_mem hc
  have hfb : 0 < jsOrQ (lookupStr a fallbackPrices) 0 := fallback_pos (a, ty) hmem
  have hsub : 0 < jsOrQ (lastPrices a) (jsOrQ (lookupStr a fallbackPrices) 0) :=
    jsOrQ_pos (fun v hv => hl a v hv) hfb
  rcases ty with _ | _ | _ | _
  · rw [fetchPrice_eq_crypto hc]
    cases hf : fetchCryptoPrice net a
    · exact hsub
    · exact fetchCryptoPrice_pos hf
  · rw [fetchPrice_eq_metal hc]
    cases hf : fetchMetalPrice net a
    · exact hsub
    · exact fetchMetalPrice_pos hf
  · rw [fetchPrice_eq_currency hc]
    cases hf : fetchForexPrice net a
    · exact hsub
    · exact fetchForexPrice_pos hf
  · rw [fetchPrice_eq_bigmac hc]
    have hbase := bigmac_base_pos (a, .bigmac) hmem rfl
    exact mul_pos hbase (jitter_factor_pos hj a)

/-- `fetchPrice` preserves nonnegativity of the `lastPrices` map (only the
Big-Mac branch writes, and it writes a positive price). -/
theorem fetchPrice_goodLast {net : String → Option ℚ} {jitter : String → ℚ}
    {lastPrices : String → Option ℚ} (a : String)
    (hj : JitterOK jitter) (hl : GoodLast lastPrices) :
    GoodLast (fetchPrice net jitter lastPrices a).2 := by
  cases hc : lookupStr a assetCatalog with
  | none =>
    unfold fetchPrice
    rw [hc]
    exact hl
  | some ty =>
    rcases ty with _ | _ | _ | _
    · rw [fetchPrice_eq_crypto hc]
      cases hf : fetchCryptoPrice net a
      · exact hl
      · exact hl
    · rw [fetchPrice_eq_metal hc]
      cases hf : fetchMetalPrice net a
      · exact hl
      · exact hl
    · rw [fetchPrice_eq_currency hc]
      cases hf : fetchForexPrice net a
      · exact hl
      · exact hl
    · rw [fetchPrice_eq_bigmac hc]
      have hmem := lookupStr_mem hc
      have hbase := bigmac_base_pos (a, .bigmac) hmem rfl
      have hfac := jitter_factor_pos hj a
      intro k v hv
      simp only [getBigMacPrice] at hv
      by_cases hk : k = a
      · rw [if_pos hk] at hv
        injection hv with h2
        rw [← h2]
        exact le_of_lt (mul_pos hbase hfac)
      · rw [if_neg hk] at hv
        exact hl k v hv

/-- The result mapping of `fetchAllPrices` has exactly one entry per
selected asset, in order — no failure aborts the loop. -/
theorem fetchAll_keys (net : String → Option ℚ) (jitter : String → ℚ) :
    ∀ (selected : List String) (lastPrices : String → Option ℚ),
    (fetchAllPrices net jitter lastPrices selected).1.map Prod.fst = selected := by
  intro selected
  induction selected with
  | nil => intro lastPrices; rfl
  | cons a rest ih =>
    intro lastPrices
    simp only [fetchAllPrices, List.map_cons]
    rw [ih]

/-- Every entry of the result mapping for a catalog asset is strictly
positive. -/
theorem fetchAll_pos (net : String → Option ℚ) (jitter : String → ℚ) :
    ∀ (selected : List String) (lastPrices : String → Option ℚ),
    JitterOK jitter → GoodLast lastPrices →
    ∀ a p, (a, p) ∈ (fetchAllPrices net jitter lastPrices selected).1 →
    ∀ ty, lookupStr a assetCatalog = some ty → 0 < p := by
  intro selected
  induction selected with
  | nil =>
    intro lastPrices _ _ a p hm
    simp [fetchAllPrices] at hm
  | cons b rest ih =>
    intro lastPrices hj hl a p hm ty hc
    simp only [fetchAllPrices, List.mem_cons] at hm
    rcases hm with heq | hm2
    · have ha : a = b := congrArg Prod.fst heq
      have hp : p = (fetchPrice net jitter lastPrices b).1 := congrArg Prod.snd heq
      rw [hp]
      subst ha
      exact fetchPrice_pos hj hl hc
    · exact ih (fetchPrice net jitter lastPrices b).2 hj
        (fetchPrice_goodLast b hj hl) a p hm2 ty hc

/-- Claim C7: every selected asset gets exactly one entry in the mapping
returned by `fetchAllPrices`, in order, whatever the per-asset network
outcomes (per-asset failures are resolved inside `fetchPrice` and cannot
abort the loop); when a network-backed category fetch does not produce a
valid price, the entry is `lastPrices[asset] || fallbackPrices[asset] || 0`,
the last-known price or the catalog fallback; and for every catalog asset
the entry is strictly positive (hence never NaN nor ≤ 0) whenever all
prior known prices are nonnegative. -/
theorem c7_fetch_fallback (net : String → Option ℚ) (jitter : String → ℚ)
    (lastPrices : String → Option ℚ) (selected : List String)
    (hj : JitterOK jitter) (hl : GoodLast lastPrices) :
    ((fetchAllPrices net jitter lastPrices selected).1.map Prod.fst = selected) ∧
    (∀ a p, (a, p) ∈ (fetchAllPrices net jitter lastPrices selected).1 →
      ∀ ty, lookupStr a assetCatalog = some ty → 0 < p) ∧
    (∀ a, lookupStr a assetCatalog = some AssetCategory.crypto →
      fetchCryptoPrice net a = none →
      (fetchPrice net jitter lastPrices a).1 =
        jsOrQ (lastPrices a) (jsOrQ (lookupStr a fallbackPrices) 0)) ∧
    (∀ a, lookupStr a assetCatalog = some AssetCategory.metal →
      fetchMetalPrice net a = none →
      (fetchPrice net jitter lastPrices a).1 =
        jsOrQ (lastPrices a) (jsOrQ (lookupStr a fallbackPrices) 0)) ∧
    (∀ a, lookupStr a assetCatalog = some AssetCategory.currency →
      fetchForexPrice net a = none →
      (fetchPrice net jitter lastPrices a).1 =
        jsOrQ (lastPrices a) (jsOrQ (lookupStr a fallbackPrices) 0)) := by
  refine ⟨fetchAll_keys net jitter selected lastPrices,
    fetchAll_pos net jitter selected lastPrices hj hl, ?_, ?_, ?_⟩
  · intro a hc hf
    rw [fetchPrice_eq_crypto hc, hf]
  · intro a hc hf
    rw [fetchPrice_eq_metal hc, hf]
  · intro a hc hf
    rw [fetchPrice_eq_currency hc, hf]

/-- Witness for C7: with every network fetch failing, no jitter and a
prior known btc price of 40000, selecting btc and eth yields entries for
exactly those two assets, and eth (failed fetch, no prior known price) is
substituted from `lastPrices["eth"] || fallback["eth"] || 0`. -/
theorem c7_fetch_fallback_witness :
    ((fetchAllPrices (fun _ => none) (fun _ => 0)
        (fun k => if k = "btc" then some 40000 else none) ["btc", "eth"]).1.map Prod.fst
      = ["btc", "eth"]) ∧
    ((fetchPrice (fun _ => none) (fun _ => 0)
        (fun k => if k = "btc" then some 40000 else none) "eth").1 =
      jsOrQ ((fun k => if k = "btc" then some 40000 else none) "eth")
        (jsOrQ (lookupStr "eth" fallbackPrices) 0)) := by
  have hj : JitterOK (fun _ => 0) := by
    intro k
    norm_num
  have hl : GoodLast (fun k => if k = "btc" then some 40000 else none) := by
    intro k v hv
    by_cases hk : k = "btc"
    · simp [hk] at hv
      linarith [hv]
    · simp [hk] at hv
  have h := c7_fetch_fallback (fun _ => none) (fun _ => 0)
    (fun k => if k = "btc" then some 40000 else none) ["btc", "eth"] hj hl
  exact ⟨h.1, h.2.2.1 "eth" (by decide) (by decide)⟩

/-- Claim C1 counterexample: saving a single-point history whose timestamp
is a `toLocaleString()`-style date (`"1/1/2024, 10:00 AM"`) and loading it
back does not return the saved point: the whitespace-stripping
"compression" removes the spaces inside the timestamp string, so the
loaded first element has timestamp `"1/1/2024,10:00AM"` ≠ the saved one
(the price field survives). -/
theorem c1_roundtrip_counterexample :
    loadHistory (saveHistory c1EmptyStore [c1SampleItem] "btc") "btc" =
      [⟨5, "1/1/2024,10:00AM".toList, "btc".toList⟩] ∧
    loadHistory (saveHistory c1EmptyStore [c1SampleItem] "btc") "btc" ≠ [c1SampleItem] := by
  decide

/-- `replF` on the empty string is the empty string, at any fuel. -/
theorem replF_nil (pat rep : List Char) : ∀ fuel, replF pat rep fuel [] = [] := by
  intro fuel
  cases fuel with
  | zero => rfl
  | succ f =>
    simp only [replF]
    by_cases hp : pat = []
    · simp [hp]
    · have hpre : pat.isPrefixOf ([] : List Char) = false := by
        cases pat with
        | nil => exact absurd rfl hp
        | cons a t => rfl
      simp [hp, hpre]

/-- The fuel of `replF` is irrelevant once it covers the input length. -/
theorem replF_congr (pat rep : List Char) :
    ∀ (f1 : Nat) (l : List Char) (f2 : Nat), l.length ≤ f1 → l.length ≤ f2 →
      replF pat rep f1 l = replF pat rep f2 l := by
  intro f1
  induction f1 with
  | zero =>
    intro l f2 h1 _
    have hl : l = [] := List.length_eq_zero.mp (Nat.le_zero.mp h1)
    subst hl
    rw [replF_nil, replF_nil]
  | succ f ih =>
    intro l f2 h1 h2
    cases l with
    | nil => rw [replF_nil, replF_nil]
    | cons c cs =>
      cases f2 with
      | zero => simp at h2
      | succ g =>
        simp only [replF]
        by_cases hc : pat ≠ [] ∧ pat.isPrefixOf (c :: cs)
        · rw [if_pos hc, if_pos hc]
          have hplen : 1 ≤ pat.length := by
            cases hp2 : pat with
            | nil => exact absurd hp2 hc.1
            | cons _ _ => simp
          have hlen1 : ((c :: cs).drop pat.length).length ≤ f := by
            rw [List.length_drop]
            simp only [List.length_cons]
            simp only [List.length_cons] at h1
            omega
          have hlen2 : ((c :: cs).drop pat.length).length ≤ g := by
            rw [List.length_drop]
            simp only [List.length_cons]
            simp only [List.length_cons] at h2
            omega
          rw [ih _ g hlen1 hlen2]
        · rw [if_neg hc, if_neg hc]
          simp only [List.length_cons] at h1 h2
          show c :: replF pat rep f cs = c :: replF pat rep g cs
          rw [ih cs g (by omega) (by omega)]

/-- `replF` at sufficient fuel is `repl`. -/
theorem replF_eq_repl (pat rep : List Char) (l : List Char) (fuel : Nat)
    (h : l.length ≤ fuel) : replF pat rep fuel l = repl pat rep l :=
  replF_congr pat rep fuel l l.length h (le_refl _)

/-- A step of `repl` that matches nothing copies the head character. -/
theorem repl_skip_no_match {pat : List Char} (rep : List Char) {c : Char} {cs : List Char}
    (h : ¬ (pat ≠ [] ∧ pat.isPrefixOf (c :: cs))) :
    repl pat rep (c :: cs) = c :: repl pat rep cs := by
  unfold repl
  simp only [List.length_cons]
  simp only [replF]
  rw [if_neg h]

/-- Every string is a `isPrefixOf` of itself extended on the right. -/
theorem isPrefixOf_append_self : ∀ (pat rest : List Char), pat.isPrefixOf (pat ++ rest) = true := by
  intro pat rest
  induction pat with
  | nil => simp [List.isPrefixOf]
  | cons a t ih => simp [List.isPrefixOf, ih]

/-- A step of `repl` at a match emits the replacement and continues after
the matched occurrence. -/
theorem repl_match {pat : List Char} (rep : List Char) (hp : pat ≠ []) (rest : List Char) :
    repl pat rep (pat ++ rest) = rep ++ repl pat rep rest := by
  obtain ⟨q, pat2, rfl⟩ : ∃ q pat2, pat = q :: pat2 := by
    cases pat with
    | nil => exact absurd rfl hp
    | cons q pat2 => exact ⟨q, pat2, rfl⟩
  have hpre := isPrefixOf_append_self (q :: pat2) rest
  unfold repl
  have hlen : ((q :: pat2) ++ rest).length = (pat2.length + rest.length) + 1 := by
    simp only [List.length_append, List.length_cons]
    omega
  rw [hlen]
  simp only [replF]
  rw [if_pos ⟨hp, hpre⟩]
  congr 1
  rw [List.drop_left]
  apply replF_eq_repl
  omega

/-- A pattern with head `q` cannot match at a character other than `q`. -/
theorem repl_skip_char {pat : List Char} {q : Char} (hq : pat.head? = some q)
    (rep : List Char) {c : Char} (hc : c ≠ q) (cs : List Char) :
    repl pat rep (c :: cs) = c :: repl pat rep cs := by
  apply repl_skip_no_match
  rintro ⟨-, hpre⟩
  obtain ⟨pat2, rfl⟩ : ∃ pat2, pat = q :: pat2 := by
    cases pat with
    | nil => simp at hq
    | cons a t =>
      injection hq with hq2
      exact ⟨t, by rw [hq2]⟩
  simp only [List.isPrefixOf, Bool.and_eq_true] at hpre
  exact hc (Eq.symm (beq_iff_eq.mp hpre.1))

/-- `repl` with a quote-headed pattern copies a quote-free segment. -/
theorem repl_skip_seg {pat : List Char} {q : Char} (hq : pat.head? = some q)
    (rep : List Char) :
    ∀ (xs ys : List Char), (∀ c ∈ xs, c ≠ q) →
      repl pat rep (xs ++ ys) = xs ++ repl pat rep ys := by
  intro xs
  induction xs with
  | nil => simp
  | cons c t ih =>
    intro ys hx
    rw [List.cons_append,
      repl_skip_char hq rep (hx c (List.mem_cons_self _ _)) (t ++ ys),
      ih ys (fun d hd => hx d (List.mem_cons_of_mem _ hd)), List.cons_append]

/-- A quoted token `"K"` never matches starting at the opening quote of a
different quote-free token `"w"`. -/
theorem not_isPrefixOf_token : ∀ (w K : List Char) (rest : List Char),
    '"' ∉ K → '"' ∉ w → K ≠ w → (K ++ ['"']).isPrefixOf (w ++ '"' :: rest) = false := by
  intro w
  induction w with
  | nil =>
    intro K rest hKq _ hne
    cases K with
    | nil => exact absurd rfl hne
    | cons k K2 =>
      have hk : k ≠ '"' := fun h => hKq (h ▸ List.mem_cons_self _ _)
      simp [List.isPrefixOf, hk]
  | cons b w2 ih =>
    intro K rest hKq hwq hne
    cases K with
    | nil =>
      have hb : b ≠ '"' := fun h => hwq (h ▸ List.mem_cons_self _ _)
      simp [List.isPrefixOf, Ne.symm hb]
    | cons k K2 =>
      by_cases hkb : k = b
      · subst hkb
        have h1 : '"' ∉ K2 := fun h => hKq (List.mem_cons_of_mem _ h)
        have h2 : '"' ∉ w2 := fun h => hwq (List.mem_cons_of_mem _ h)
        have h3 : K2 ≠ w2 := fun h => hne (by rw [h])
        simp [List.isPrefixOf, ih K2 rest h1 h2 h3]
      · simp [List.isPrefixOf, hkb]

/-- `repl` rewriting the token `"K"` copies a whole different quote-free
token `"w"` verbatim, provided the next character cannot start a `K`
match. -/
theorem repl_skip_token {K : List Char} (K2 : List Char) {k0 : Char}
    (hk0 : K.head? = some k0) (hKq : '"' ∉ K) {w : List Char} (hwq : '"' ∉ w)
    (hne : w ≠ K) {rest : List Char}
    (hrest : ∀ r0, rest.head? = some r0 → r0 ≠ k0) :
    repl (qtokC K) (qtokC K2) (qtokC w ++ rest) =
      qtokC w ++ repl (qtokC K) (qtokC K2) rest := by
  obtain ⟨K1, rfl⟩ : ∃ K1, K = k0 :: K1 := by
    cases K with
    | nil => simp at hk0
    | cons a t =>
      injection hk0 with h2
      exact ⟨t, by rw [h2]⟩
  have hshape : qtokC w ++ rest = '"' :: (w ++ '"' :: rest) := by simp [qtokC]
  rw [hshape]
  have hnm : ¬ ((qtokC (k0 :: K1)) ≠ [] ∧
      (qtokC (k0 :: K1)).isPrefixOf ('"' :: (w ++ '"' :: rest))) := by
    rintro ⟨-, hpre⟩
    simp only [qtokC, List.isPrefixOf, List.cons_append, List.append_eq,
      Bool.and_eq_true] at hpre
    have := not_isPrefixOf_token w (k0 :: K1) rest hKq hwq (Ne.symm hne)
    simp only [List.cons_append] at this
    rw [this] at hpre
    exact Bool.false_ne_true hpre.2
  rw [repl_skip_no_match _ hnm]
  rw [repl_skip_seg (show (qtokC (k0 :: K1)).head? = some '"' by simp [qtokC]) _
    w ('"' :: rest) (fun c hc h => hwq (h ▸ hc))]
  have hnm2 : ¬ ((qtokC (k0 :: K1)) ≠ [] ∧
      (qtokC (k0 :: K1)).isPrefixOf ('"' :: rest)) := by
    rintro ⟨-, hpre⟩
    simp only [qtokC, List.isPrefixOf, List.cons_append, List.append_eq,
      Bool.and_eq_true] at hpre
    have hpre2 := hpre.2
    cases rest with
    | nil => simp [List.isPrefixOf] at hpre2
    | cons r0 rest2 =>
      have hr0 := hrest r0 rfl
      simp only [List.isPrefixOf, Bool.and_eq_true] at hpre2
      exact hr0 (Eq.symm (beq_iff_eq.mp hpre2.1))
  rw [repl_skip_no_match _ hnm2]
  simp [qtokC]

/-- One quoted token under the key substitution: `"K"` becomes `"K2"`,
any other quote-free token is copied. -/
theorem repl_token {K : List Char} (K2 : List Char) {k0 : Char}
    (hk0 : K.head? = some k0) (hKq : '"' ∉ K) {w : List Char} (hwq : '"' ∉ w)
    {rest : List Char} (hrest : ∀ r0, rest.head? = some r0 → r0 ≠ k0) :
    repl (qtokC K) (qtokC K2) (qtokC w ++ rest) =
      qtokC (if w = K then K2 else w) ++ repl (qtokC K) (qtokC K2) rest := by
  by_cases hwk : w = K
  · subst hwk
    rw [if_pos rfl]
    exact repl_match (qtokC K2) (by simp [qtokC]) rest
  · rw [if_neg hwk]
    exact repl_skip_token K2 hk0 hKq hwq hwk hrest

/-- Digits of `natDigitsF` lie in the decimal-digit code-point range. -/
theorem natDigitsF_bound : ∀ (fuel n : Nat), ∀ c ∈ natDigitsF fuel n,
    48 ≤ c.toNat ∧ c.toNat ≤ 57 := by
  intro fuel
  induction fuel with
  | zero => intro n c hc; simp [natDigitsF] at hc
  | succ f ih =>
    intro n c hc
    have hdigit : ∀ d : Nat, d < 10 → 48 ≤ (digitChar d).toNat ∧ (digitChar d).toNat ≤ 57 := by
      intro d hd
      interval_cases d <;> decide
    simp only [natDigitsF] at hc
    by_cases h10 : n < 10
    · rw [if_pos h10] at hc
      simp only [List.mem_singleton] at hc
      subst hc
      exact hdigit n h10
    · rw [if_neg h10] at hc
      rcases List.mem_append.mp hc with h | h
      · exact ih (n / 10) c h
      · simp only [List.mem_singleton] at h
        subst h
        exact hdigit (n % 10) (Nat.mod_lt _ (by omega))

/-- Digits of `natDigits` lie in the decimal-digit code-point range. -/
theorem natDigits_bound (n : Nat) : ∀ c ∈ natDigits n,
    48 ≤ c.toNat ∧ c.toNat ≤ 57 :=
  natDigitsF_bound (n + 1) n

/-- Digit characters are not quotes. -/
theorem natDigits_ne_quote (n : Nat) : ∀ c ∈ natDigits n, c ≠ '"' := by
  intro c hc h
  have := natDigits_bound n c hc
  rw [h] at this
  simp at this

/-- Digit characters are not whitespace. -/
theorem natDigits_no_ws (n : Nat) : ∀ c ∈ natDigits n, jsWs c = false := by
  intro c hc
  have := natDigits_bound n c hc
  simp only [jsWs]
  simp only [Bool.or_eq_false_iff, decide_eq_false_iff_not]
  omega

/-- The key substitution walks one serialized record: key tokens equal to
`K` are rewritten, all other tokens and separators are copied, and the
walk continues on the rest. -/
theorem repl_itemChars {K : List Char} (K2 : List Char) {k0 : Char}
    (hk0 : K.head? = some k0) (hKq : '"' ∉ K)
    (h0a : k0 ≠ ':') (h0b : k0 ≠ ',') (h0c : k0 ≠ cbrace)
    {kp kt ka : List Char} (hkp : '"' ∉ kp) (hkt : '"' ∉ kt) (hka : '"' ∉ ka)
    (it : HistItem) (hts : '"' ∉ it.timestamp) (htsne : it.timestamp ≠ K)
    (hasq : '"' ∉ it.asset) (hasne : it.asset ≠ K) (rest : List Char) :
    repl (qtokC K) (qtokC K2) (itemChars kp kt ka it ++ rest) =
      itemChars (if kp = K then K2 else kp) (if kt = K then K2 else kt)
        (if ka = K then K2 else ka) it ++ repl (qtokC K) (qtokC K2) rest := by
  have hq : (qtokC K).head? = some '"' := by simp [qtokC]
  have hcons : ∀ (c : Char), c ≠ k0 → ∀ (xs : List Char) (r0 : Char),
      (c :: xs).head? = some r0 → r0 ≠ k0 := by
    intro c hc xs r0 h
    rw [List.head?_cons] at h
    injection h with h2
    rw [← h2]
    exact hc
  have hob : obrace ≠ '"' := by decide
  have hcb : cbrace ≠ '"' := by decide
  have hcolon : (':' : Char) ≠ '"' := by decide
  have hcomma : (',' : Char) ≠ '"' := by decide
  simp only [itemChars, List.cons_append, List.append_assoc, List.singleton_append]
  rw [repl_skip_char hq _ hob]
  rw [repl_token K2 hk0 hKq hkp (hcons ':' (Ne.symm h0a) _)]
  rw [repl_skip_char hq _ hcolon]
  rw [repl_skip_seg hq _ (natDigits it.price) _ (natDigits_ne_quote _)]
  rw [repl_skip_char hq _ hcomma]
  rw [repl_token K2 hk0 hKq hkt (hcons ':' (Ne.symm h0a) _)]
  rw [repl_skip_char hq _ hcolon]
  rw [repl_token K2 hk0 hKq hts (hcons ',' (Ne.symm h0b) _)]
  rw [repl_skip_char hq _ hcomma]
  rw [repl_token K2 hk0 hKq hka (hcons ':' (Ne.symm h0a) _)]
  rw [repl_skip_char hq _ hcolon]
  rw [repl_token K2 hk0 hKq hasq (hcons cbrace (Ne.symm h0c) _)]
  rw [repl_skip_char hq _ hcb]
  rw [if_neg htsne, if_neg hasne]
  simp only [List.nil_append]

/-- Unfolding equation of `itemsChars` at two or more records. -/
theorem itemsChars_cons_cons (kp kt ka : List Char) (it it2 : HistItem)
    (t2 : List HistItem) :
    itemsChars kp kt ka (it :: it2 :: t2) =
      itemChars kp kt ka it ++ (',' :: itemsChars kp kt ka (it2 :: t2)) := rfl

/-- The key substitution over the comma-joined record list followed by the
closing bracket. -/
theorem repl_itemsChars {K : List Char} (K2 : List Char) {k0 : Char}
    (hk0 : K.head? = some k0) (hKq : '"' ∉ K)
    (h0a : k0 ≠ ':') (h0b : k0 ≠ ',') (h0c : k0 ≠ cbrace)
    {kp kt ka : List Char} (hkp : '"' ∉ kp) (hkt : '"' ∉ kt) (hka : '"' ∉ ka) :
    ∀ (l : List HistItem),
    (∀ it ∈ l, '"' ∉ it.timestamp ∧ it.timestamp ≠ K ∧ '"' ∉ it.asset ∧ it.asset ≠ K) →
    repl (qtokC K) (qtokC K2) (itemsChars kp kt ka l ++ [']']) =
      itemsChars (if kp = K then K2 else kp) (if kt = K then K2 else kt)
        (if ka = K then K2 else ka) l ++ [']'] := by
  have hq : (qtokC K).head? = some '"' := by simp [qtokC]
  have hbr : (']' : Char) ≠ '"' := by decide
  have hcomma : (',' : Char) ≠ '"' := by decide
  intro l
  induction l with
  | nil =>
    intro _
    simp only [itemsChars, List.nil_append]
    rw [repl_skip_char hq _ hbr]
    rfl
  | cons it t ih =>
    intro hsafe
    have hit := hsafe it (List.mem_cons_self _ _)
    cases t with
    | nil =>
      simp only [itemsChars, List.append_nil]
      rw [repl_itemChars K2 hk0 hKq h0a h0b h0c hkp hkt hka it
        hit.1 hit.2.1 hit.2.2.1 hit.2.2.2 [']']]
      rw [repl_skip_char hq _ hbr]
      rfl
    | cons it2 t2 =>
      simp only [itemsChars_cons_cons, List.append_assoc, List.cons_append]
      rw [repl_itemChars K2 hk0 hKq h0a h0b h0c hkp hkt hka it
        hit.1 hit.2.1 hit.2.2.1 hit.2.2.2 (',' :: (itemsChars kp kt ka (it2 :: t2) ++ [']']))]
      rw [repl_skip_char hq _ hcomma]
      rw [ih (fun x hx => hsafe x (List.mem_cons_of_mem _ hx))]

/-- The key substitution over the whole serialized list. -/
theorem repl_stringifyItems {K : List Char} (K2 : List Char) {k0 : Char}
    (hk0 : K.head? = some k0) (hKq : '"' ∉ K)
    (h0a : k0 ≠ ':') (h0b : k0 ≠ ',') (h0c : k0 ≠ cbrace)
    {kp kt ka : List Char} (hkp : '"' ∉ kp) (hkt : '"' ∉ kt) (hka : '"' ∉ ka)
    (l : List HistItem)
    (hsafe : ∀ it ∈ l, '"' ∉ it.timestamp ∧ it.timestamp ≠ K ∧ '"' ∉ it.asset ∧ it.asset ≠ K) :
    repl (qtokC K) (qtokC K2) (stringifyItems kp kt ka l) =
      stringifyItems (if kp = K then K2 else kp) (if kt = K then K2 else kt)
        (if ka = K then K2 else ka) l := by
  have hq : (qtokC K).head? = some '"' := by simp [qtokC]
  have hbl : ('[' : Char) ≠ '"' := by decide
  simp only [stringifyItems, List.cons_append]
  rw [repl_skip_char hq _ hbl]
  rw [repl_itemsChars K2 hk0 hKq h0a h0b h0c hkp hkt hka l hsafe]

/-- Pointwise property of a cons. -/
theorem forall_mem_cons2 {P : Char → Prop} {x : Char} {xs : List Char}
    (hx : P x) (h : ∀ c ∈ xs, P c) : ∀ c ∈ x :: xs, P c := by
  intro c hc
  rcases List.mem_cons.mp hc with rfl | h2
  · exact hx
  · exact h c h2

/-- Pointwise property of an append. -/
theorem forall_mem_append2 {P : Char → Prop} {xs ys : List Char}
    (h1 : ∀ c ∈ xs, P c) (h2 : ∀ c ∈ ys, P c) : ∀ c ∈ xs ++ ys, P c := by
  intro c hc
  rcases List.mem_append.mp hc with h | h
  · exact h1 c h
  · exact h2 c h

/-- Pointwise property of the empty string. -/
theorem forall_mem_nil2 {P : Char → Prop} : ∀ c ∈ ([] : List Char), P c := by
  intro c hc
  simp at hc

/-- Pointwise property of a quoted token. -/
theorem forall_mem_qtok {P : Char → Prop} (hq : P '"') {w : List Char}
    (h : ∀ c ∈ w, P c) : ∀ c ∈ qtokC w, P c :=
  forall_mem_cons2 hq (forall_mem_append2 h (forall_mem_cons2 hq forall_mem_nil2))

/-- Pointwise property of one serialized record. -/
theorem forall_mem_itemChars {P : Char → Prop}
    (hsep : P obrace ∧ P cbrace ∧ P ':' ∧ P ',' ∧ P '"')
    {kp kt ka : List Char} (hkp : ∀ c ∈ kp, P c) (hkt : ∀ c ∈ kt, P c)
    (hka : ∀ c ∈ ka, P c) {it : HistItem}
    (hd : ∀ c ∈ natDigits it.price, P c)
    (hts : ∀ c ∈ it.timestamp, P c) (has2 : ∀ c ∈ it.asset, P c) :
    ∀ c ∈ itemChars kp kt ka it, P c := by
  obtain ⟨h1, h2, h3, h4, h5⟩ := hsep
  exact forall_mem_cons2 h1 (forall_mem_append2 (forall_mem_qtok h5 hkp)
    (forall_mem_cons2 h3 (forall_mem_append2 hd
    (forall_mem_cons2 h4 (forall_mem_append2 (forall_mem_qtok h5 hkt)
    (forall_mem_cons2 h3 (forall_mem_append2 (forall_mem_qtok h5 hts)
    (forall_mem_cons2 h4 (forall_mem_append2 (forall_mem_qtok h5 hka)
    (forall_mem_cons2 h3 (forall_mem_append2 (forall_mem_qtok h5 has2)
    (forall_mem_cons2 h2 forall_mem_nil2))))))))))))

/-- Pointwise property of the whole serialization. -/
theorem forall_mem_stringify {P : Char → Prop}
    (hsep : P obrace ∧ P cbrace ∧ P ':' ∧ P ',' ∧ P '"' ∧ P '[' ∧ P ']')
    {kp kt ka : List Char} (hkp : ∀ c ∈ kp, P c) (hkt : ∀ c ∈ kt, P c)
    (hka : ∀ c ∈ ka, P c) :
    ∀ (l : List HistItem),
    (∀ it ∈ l, (∀ c ∈ natDigits it.price, P c) ∧ (∀ c ∈ it.timestamp, P c) ∧
      (∀ c ∈ it.asset, P c)) →
    ∀ c ∈ stringifyItems kp kt ka l, P c := by
  obtain ⟨h1, h2, h3, h4, h5, h6, h7⟩ := hsep
  have hitems : ∀ (l : List HistItem),
      (∀ it ∈ l, (∀ c ∈ natDigits it.price, P c) ∧ (∀ c ∈ it.timestamp, P c) ∧
        (∀ c ∈ it.asset, P c)) →
      ∀ c ∈ itemsChars kp kt ka l, P c := by
    intro l
    induction l with
    | nil => intro _; exact forall_mem_nil2
    | cons it t ih =>
      intro hl
      have hit := hl it (List.mem_cons_self _ _)
      have hhead := forall_mem_itemChars ⟨h1, h2, h3, h4, h5⟩ hkp hkt hka
        hit.1 hit.2.1 hit.2.2
      cases t with
      | nil =>
        simp only [itemsChars, List.append_nil]
        exact hhead
      | cons it2 t2 =>
        rw [itemsChars_cons_cons]
        exact forall_mem_append2 hhead (forall_mem_cons2 h4
          (ih (fun x hx => hl x (List.mem_cons_of_mem _ hx))))
  intro l hl
  simp only [stringifyItems, List.cons_append]
  exact forall_mem_cons2 h6 (forall_mem_append2 (hitems l hl)
    (forall_mem_cons2 h7 forall_mem_nil2))

/-- `stripWs` is the identity on whitespace-free strings. -/
theorem stripWs_eq_self {l : List Char} (h : ∀ c ∈ l, jsWs c = false) :
    stripWs l = l := by
  unfold stripWs
  refine List.filter_eq_self.mpr (fun c hc => ?_)
  simp [h c hc]

/-- A safe field has no quote character. -/
theorem safeField_no_quote {w : List Char} (h : safeField w) : '"' ∉ w := by
  intro hmem
  exact absurd (h.1 '"' hmem) (by decide)

/-- A safe field has no whitespace character. -/
theorem safeField_no_ws {w : List Char} (h : safeField w) : ∀ c ∈ w, jsWs c = false := by
  intro c hc
  have := h.1 c hc
  simp only [safeChar, Bool.and_eq_true, Bool.not_eq_true'] at this
  exact this.1.1.1

/-- A safe field differs from each of the six substituted tokens. -/
theorem safeField_ne_token {w tok : List Char} (h : safeField w)
    (htok : tok ∈ tokenWords) : w ≠ tok := by
  intro heq
  exact h.2 (heq ▸ htok)

/-- `compress` after `JSON.stringify` on a safe history shortens exactly
the three key tokens and changes nothing else. -/
theorem compress_stringify (l : List HistItem) (hsafe : ∀ it ∈ l, safeItem it) :
    compressStr (jsonStringifyHistory l) =
      stringifyItems "p".toList "t".toList "a".toList l := by
  have hws : ∀ c ∈ stringifyItems "price".toList "timestamp".toList "asset".toList l,
      jsWs c = false := by
    refine forall_mem_stringify ⟨by decide, by decide, by decide, by decide, by decide,
      by decide, by decide⟩ (by decide) (by decide) (by decide) l (fun it hit => ?_)
    exact ⟨natDigits_no_ws it.price, safeField_no_ws (hsafe it hit).1,
      safeField_no_ws (hsafe it hit).2⟩
  have hvT : ∀ it ∈ l, '"' ∉ it.timestamp ∧ it.timestamp ≠ "timestamp".toList ∧
      '"' ∉ it.asset ∧ it.asset ≠ "timestamp".toList := fun it hit =>
    ⟨safeField_no_quote (hsafe it hit).1,
     safeField_ne_token (hsafe it hit).1 (by decide),
     safeField_no_quote (hsafe it hit).2,
     safeField_ne_token (hsafe it hit).2 (by decide)⟩
  have hvP : ∀ it ∈ l, '"' ∉ it.timestamp ∧ it.timestamp ≠ "price".toList ∧
      '"' ∉ it.asset ∧ it.asset ≠ "price".toList := fun it hit =>
    ⟨safeField_no_quote (hsafe it hit).1,
     safeField_ne_token (hsafe it hit).1 (by decide),
     safeField_no_quote (hsafe it hit).2,
     safeField_ne_token (hsafe it hit).2 (by decide)⟩
  have hvA : ∀ it ∈ l, '"' ∉ it.timestamp ∧ it.timestamp ≠ "asset".toList ∧
      '"' ∉ it.asset ∧ it.asset ≠ "asset".toList := fun it hit =>
    ⟨safeField_no_quote (hsafe it hit).1,
     safeField_ne_token (hsafe it hit).1 (by decide),
     safeField_no_quote (hsafe it hit).2,
     safeField_ne_token (hsafe it hit).2 (by decide)⟩
  unfold compressStr jsonStringifyHistory
  rw [stripWs_eq_self hws]
  rw [repl_stringifyItems "t".toList
    (show ("timestamp".toList).head? = some 't' from by decide) (by decide) (by decide)
    (by decide) (by decide) (by decide) (by decide) (by decide) l hvT]
  rw [if_neg (by decide), if_pos rfl, if_neg (by decide)]
  rw [repl_stringifyItems "p".toList
    (show ("price".toList).head? = some 'p' from by decide) (by decide) (by decide)
    (by decide) (by decide) (by decide) (by decide) (by decide) l hvP]
  rw [if_pos rfl, if_neg (by decide), if_neg (by decide)]
  rw [repl_stringifyItems "a".toList
    (show ("asset".toList).head? = some 'a' from by decide) (by decide) (by decide)
    (by decide) (by decide) (by decide) (by decide) (by decide) l hvA]
  rw [if_neg (by decide), if_neg (by decide), if_pos rfl]

/-- The `decompress` string transform restores exactly the three key
tokens of a safe compressed serialization. -/
theorem decompress_stringify (l : List HistItem) (hsafe : ∀ it ∈ l, safeItem it) :
    decompressStr (stringifyItems "p".toList "t".toList "a".toList l) =
      stringifyItems "price".toList "timestamp".toList "asset".toList l := by
  have hvT : ∀ it ∈ l, '"' ∉ it.timestamp ∧ it.timestamp ≠ "t".toList ∧
      '"' ∉ it.asset ∧ it.asset ≠ "t".toList := fun it hit =>
    ⟨safeField_no_quote (hsafe it hit).1,
     safeField_ne_token (hsafe it hit).1 (by decide),
     safeField_no_quote (hsafe it hit).2,
     safeField_ne_token (hsafe it hit).2 (by decide)⟩
  have hvP : ∀ it ∈ l, '"' ∉ it.timestamp ∧ it.timestamp ≠ "p".toList ∧
      '"' ∉ it.asset ∧ it.asset ≠ "p".toList := fun it hit =>
    ⟨safeField_no_quote (hsafe it hit).1,
     safeField_ne_token (hsafe it hit).1 (by decide),
     safeField_no_quote (hsafe it hit).2,
     safeField_ne_token (hsafe it hit).2 (by decide)⟩
  have hvA : ∀ it ∈ l, '"' ∉ it.timestamp ∧ it.timestamp ≠ "a".toList ∧
      '"' ∉ it.asset ∧ it.asset ≠ "a".toList := fun it hit =>
    ⟨safeField_no_quote (hsafe it hit).1,
     safeField_ne_token (hsafe it hit).1 (by decide),
     safeField_no_quote (hsafe it hit).2,
     safeField_ne_token (hsafe it hit).2 (by decide)⟩
  unfold decompressStr
  rw [repl_stringifyItems "timestamp".toList
    (show ("t".toList).head? = some 't' from by decide) (by decide) (by decide)
    (by decide) (by decide) (by decide) (by decide) (by decide) l hvT]
  rw [if_neg (by decide), if_pos rfl, if_neg (by decide)]
  rw [repl_stringifyItems "price".toList
    (show ("p".toList).head? = some 'p' from by decide) (by decide) (by decide)
    (by decide) (by decide) (by decide) (by decide) (by decide) l hvP]
  rw [if_pos rfl, if_neg (by decide), if_neg (by decide)]
  rw [repl_stringifyItems "asset".toList
    (show ("a".toList).head? = some 'a' from by decide) (by decide) (by decide)
    (by decide) (by decide) (by decide) (by decide) (by decide) l hvA]
  rw [if_neg (by decide), if_neg (by decide), if_pos rfl]

/-- `takeWhile` over a satisfying segment stops exactly at the first
failing character. -/
theorem takeWhile_append_stop (p : Char → Bool) :
    ∀ (xs : List Char) (y : Char) (ys : List Char),
    (∀ c ∈ xs, p c = true) → p y = false →
    (xs ++ y :: ys).takeWhile p = xs := by
  intro xs
  induction xs with
  | nil =>
    intro y ys _ hy
    simp [List.takeWhile_cons, hy]
  | cons c t ih =>
    intro y ys hx hy
    simp only [List.cons_append, List.takeWhile_cons, hx c (List.mem_cons_self _ _),
      if_true]
    rw [ih y ys (fun d hd => hx d (List.mem_cons_of_mem _ hd)) hy]

/-- `dropWhile` over a satisfying segment drops exactly up to the first
failing character. -/
theorem dropWhile_append_stop (p : Char → Bool) :
    ∀ (xs : List Char) (y : Char) (ys : List Char),
    (∀ c ∈ xs, p c = true) → p y = false →
    (xs ++ y :: ys).dropWhile p = y :: ys := by
  intro xs
  induction xs with
  | nil =>
    intro y ys _ hy
    simp [List.dropWhile_cons, hy]
  | cons c t ih =>
    intro y ys hx hy
    simp only [List.cons_append, List.dropWhile_cons, hx c (List.mem_cons_self _ _),
      if_true]
    exact ih y ys (fun d hd => hx d (List.mem_cons_of_mem _ hd)) hy

/-- Unfolding equation of `digitsVal` at the end of the string. -/
theorem digitsVal_nil (acc : Nat) : digitsVal acc [] = acc := rfl

/-- Unfolding equation of `digitsVal` at a cons. -/
theorem digitsVal_cons (acc : Nat) (c : Char) (cs : List Char) :
    digitsVal acc (c :: cs) = digitsVal (acc * 10 + digitVal c) cs := rfl

/-- `digitsVal` distributes over append. -/
theorem digitsVal_append : ∀ (xs ys : List Char) (acc : Nat),
    digitsVal acc (xs ++ ys) = digitsVal (digitsVal acc xs) ys := by
  intro xs
  induction xs with
  | nil => intro ys acc; rfl
  | cons c t ih =>
    intro ys acc
    rw [List.cons_append, digitsVal_cons, digitsVal_cons]
    exact ih ys (acc * 10 + digitVal c)

/-- The fuel of `natDigitsF` is irrelevant once it exceeds the number. -/
theorem natDigitsF_congr : ∀ (f1 n f2 : Nat), n < f1 → n < f2 →
    natDigitsF f1 n = natDigitsF f2 n := by
  intro f1
  induction f1 with
  | zero => intro n f2 h1 _; omega
  | succ f ih =>
    intro n f2 h1 h2
    cases f2 with
    | zero => omega
    | succ g =>
      simp only [natDigitsF]
      by_cases h10 : n < 10
      · rw [if_pos h10, if_pos h10]
      · rw [if_neg h10, if_neg h10]
        have hdiv : n / 10 < n := Nat.div_lt_self (by omega) (by omega)
        rw [ih (n / 10) g (by omega) (by omega)]

/-- `natDigits` on a single-digit number. -/
theorem natDigits_lt {n : Nat} (h : n < 10) : natDigits n = [digitChar n] := by
  unfold natDigits
  simp only [natDigitsF]
  rw [if_pos h]

/-- `natDigits` on a multi-digit number peels the last digit. -/
theorem natDigits_ge {n : Nat} (h : 10 ≤ n) :
    natDigits n = natDigits (n / 10) ++ [digitChar (n % 10)] := by
  have h1 : natDigits n = natDigitsF (n + 1) n := rfl
  rw [h1]
  simp only [natDigitsF]
  rw [if_neg (by omega)]
  have hdiv : n / 10 < n := Nat.div_lt_self (by omega) (by omega)
  rw [natDigitsF_congr n (n / 10) (n / 10 + 1) (by omega) (by omega)]
  rfl

/-- `natDigits` is never empty. -/
theorem natDigits_ne_nil (n : Nat) : natDigits n ≠ [] := by
  by_cases h : n < 10
  · rw [natDigits_lt h]
    simp
  · rw [natDigits_ge (by omega)]
    simp

/-- The value of a digit character. -/
theorem digitVal_digitChar {d : Nat} (h : d < 10) : digitVal (digitChar d) = d := by
  interval_cases d <;> decide

/-- Evaluating the digit string of `n` from any accumulator. -/
theorem digitsVal_natDigits : ∀ (n acc : Nat),
    digitsVal acc (natDigits n) = acc * 10 ^ (natDigits n).length + n := by
  intro n
  induction n using Nat.strong_induction_on with
  | _ n ih =>
    intro acc
    by_cases h : n < 10
    · rw [natDigits_lt h, digitsVal_cons, digitsVal_nil, digitVal_digitChar h,
        List.length_singleton, pow_one]
    · have h10 : 10 ≤ n := by omega
      have hdiv : n / 10 < n := Nat.div_lt_self (by omega) (by omega)
      rw [natDigits_ge h10, digitsVal_append, ih (n / 10) hdiv acc,
        digitsVal_cons, digitsVal_nil, digitVal_digitChar (Nat.mod_lt n (by omega)),
        List.length_append, List.length_singleton]
      have hpow : (10 : Nat) ^ ((natDigits (n / 10)).length + 1) =
          10 ^ (natDigits (n / 10)).length * 10 := pow_succ 10 _
      rw [hpow]
      have hmod : n / 10 * 10 + n % 10 = n := by omega
      ring_nf
      omega

/-- All digit characters of `natDigits` satisfy the digit test. -/
theorem natDigits_isDigitC (n : Nat) : ∀ c ∈ natDigits n, isDigitC c = true := by
  intro c hc
  have := natDigits_bound n c hc
  simp only [isDigitC, Bool.and_eq_true, decide_eq_true_eq]
  omega

/-- Parsing the digit string of `n` followed by a non-digit. -/
theorem parseNatTok_digits (n : Nat) (r0 : Char) (rs : List Char)
    (h0 : isDigitC r0 = false) :
    parseNatTok (natDigits n ++ r0 :: rs) = some (n, r0 :: rs) := by
  simp only [parseNatTok]
  rw [takeWhile_append_stop isDigitC (natDigits n) r0 rs (natDigits_isDigitC n) h0]
  rw [dropWhile_append_stop isDigitC (natDigits n) r0 rs (natDigits_isDigitC n) h0]
  have hne : (natDigits n).isEmpty = false := by
    cases hd : natDigits n with
    | nil => exact absurd hd (natDigits_ne_nil n)
    | cons a t => rfl
  rw [hne]
  simp only [Bool.false_eq_true, if_false]
  rw [digitsVal_natDigits n 0]
  simp

/-- Parsing an (escape-free) quote-free string body before its closing
quote. -/
theorem parseStrTok_value (w rest : List Char) (hw : '"' ∉ w) :
    parseStrTok (w ++ '"' :: rest) = some (w, rest) := by
  have hcs : ∀ c ∈ w, (fun c => decide (c ≠ '"')) c = true := by
    intro c hc
    simp only [decide_eq_true_eq]
    intro heq
    exact hw (heq ▸ hc)
  have hq : (fun c => decide (c ≠ '"')) '"' = false := by decide
  have hd := dropWhile_append_stop _ w '"' rest hcs hq
  have ht := takeWhile_append_stop _ w '"' rest hcs hq
  simp only [parseStrTok, hd, ht]

/-- A literal token at the head of the input is consumed exactly. -/
theorem expectTok_append (pat rest : List Char) :
    expectTok pat (pat ++ rest) = some rest := by
  simp only [expectTok, isPrefixOf_append_self, if_true, List.drop_left]

/-- `parseItem` inverts `itemChars` on quote-free fields, leaving the rest
of the input untouched. -/
theorem parseItem_item (it : HistItem) (rest : List Char)
    (hts : '"' ∉ it.timestamp) (has2 : '"' ∉ it.asset) :
    parseItem (itemChars "price".toList "timestamp".toList "asset".toList it ++ rest)
      = some (it, rest) := by
  obtain ⟨pr, ts, av⟩ := it
  have h1 : itemChars "price".toList "timestamp".toList "asset".toList ⟨pr, ts, av⟩ ++ rest
      = (obrace :: (qtokC "price".toList ++ [':'])) ++
        (natDigits pr ++ (',' :: ((qtokC "timestamp".toList ++ [':', '"']) ++
         (ts ++ ('"' :: ((',' :: ((qtokC "asset".toList ++ [':', '"']) ++
         (av ++ ('"' :: ([cbrace] ++ rest))))))))))) := by
    simp [itemChars, qtokC, List.append_assoc]
  rw [parseItem, h1, expectTok_append, Option.some_bind,
    parseNatTok_digits pr ',' _ (by decide), Option.some_bind]
  rw [show (',' :: ((qtokC "timestamp".toList ++ [':', '"']) ++ (ts ++ ('"' ::
      ((',' :: ((qtokC "asset".toList ++ [':', '"']) ++ (av ++ ('"' ::
      ([cbrace] ++ rest))))))))))
    = (',' :: (qtokC "timestamp".toList ++ [':', '"'])) ++ (ts ++ ('"' ::
      ((',' :: ((qtokC "asset".toList ++ [':', '"']) ++ (av ++ ('"' ::
      ([cbrace] ++ rest))))))))
    from by simp [List.append_assoc]]
  rw [expectTok_append, Option.some_bind, parseStrTok_value ts _ hts, Option.some_bind]
  rw [show (',' :: ((qtokC "asset".toList ++ [':', '"']) ++ (av ++ ('"' ::
      ([cbrace] ++ rest)))))
    = (',' :: (qtokC "asset".toList ++ [':', '"'])) ++ (av ++ ('"' ::
      ([cbrace] ++ rest)))
    from by simp [List.append_assoc]]
  rw [expectTok_append, Option.some_bind, parseStrTok_value av _ has2, Option.some_bind]
  rw [expectTok_append, Option.some_bind]

/-- A serialized record is nonempty. -/
theorem itemChars_length_pos (kp kt ka : List Char) (it : HistItem) :
    1 ≤ (itemChars kp kt ka it).length := by
  simp [itemChars]

/-- The serialization of a record list is at least as long as the list. -/
theorem itemsChars_length_ge (kp kt ka : List Char) :
    ∀ l : List HistItem, l.length ≤ (itemsChars kp kt ka l).length := by
  intro l
  induction l with
  | nil => simp [itemsChars]
  | cons it t ih =>
    cases t with
    | nil =>
      simp only [itemsChars, List.append_nil, List.length_cons, List.length_nil]
      simpa using itemChars_length_pos kp kt ka it
    | cons it2 t2 =>
      rw [itemsChars_cons_cons]
      simp only [List.length_append, List.length_cons] at ih ⊢
      have h1 := itemChars_length_pos kp kt ka it
      omega

/-- The record-sequence parser inverts `itemsChars` on a nonempty
quote-free record list, given enough fuel, consuming the closing
bracket. -/
theorem parseItemsAux_items :
    ∀ (l : List HistItem), l ≠ [] → ∀ fuel : Nat, l.length ≤ fuel →
    (∀ x ∈ l, '"' ∉ x.timestamp ∧ '"' ∉ x.asset) →
    parseItemsAux fuel
      (itemsChars "price".toList "timestamp".toList "asset".toList l ++ [']'])
      = some (l, []) := by
  intro l
  induction l with
  | nil => intro h; exact absurd rfl h
  | cons it t ih =>
    intro _ fuel hfuel hsafe
    cases fuel with
    | zero => simp at hfuel
    | succ f =>
      simp only [parseItemsAux]
      have hit := hsafe it (List.mem_cons_self _ _)
      cases t with
      | nil =>
        have hshape : itemsChars "price".toList "timestamp".toList "asset".toList [it]
            ++ [']'] =
            itemChars "price".toList "timestamp".toList "asset".toList it
            ++ (']' :: []) := by
          simp [itemsChars]
        rw [hshape, parseItem_item it _ hit.1 hit.2, Option.some_bind]
        rfl
      | cons it2 t2 =>
        have hshape : itemsChars "price".toList "timestamp".toList "asset".toList
            (it :: it2 :: t2) ++ [']'] =
            itemChars "price".toList "timestamp".toList "asset".toList it
            ++ (',' :: (itemsChars "price".toList "timestamp".toList "asset".toList
              (it2 :: t2) ++ [']'])) := by
          rw [itemsChars_cons_cons]
          simp [List.append_assoc]
        rw [hshape, parseItem_item it _ hit.1 hit.2, Option.some_bind]
        show (parseItemsAux f (itemsChars "price".toList "timestamp".toList
          "asset".toList (it2 :: t2) ++ [']'])).bind
            (fun r2 => some (it :: r2.1, r2.2)) = _
        rw [ih (by simp) f (by simp at hfuel ⊢; omega)
          (fun x hx => hsafe x (List.mem_cons_of_mem _ hx)), Option.some_bind]

/-- `JSON.parse` inverts the serialization on quote-free record lists. -/
theorem parseItems_stringify (l : List HistItem)
    (hsafe : ∀ x ∈ l, '"' ∉ x.timestamp ∧ '"' ∉ x.asset) :
    parseItems (stringifyItems "price".toList "timestamp".toList "asset".toList l)
      = some l := by
  cases l with
  | nil => rfl
  | cons it t =>
    have hlen := itemsChars_length_ge "price".toList "timestamp".toList "asset".toList
      (it :: t)
    have hne : itemsChars "price".toList "timestamp".toList "asset".toList (it :: t)
        ++ [']'] ≠ [']'] := by
      intro h
      have := congrArg List.length h
      simp only [List.length_append, List.length_singleton, List.length_cons] at this hlen
      omega
    rw [stringifyItems, List.cons_append]
    simp only [parseItems]
    rw [if_neg hne]
    rw [parseItemsAux_items (it :: t) (by simp) _
      (by simp only [List.length_append, List.length_singleton, List.length_cons] at hlen ⊢
          omega)
      hsafe, Option.some_bind]
    rfl

/-- Claim C1 as amended: the persistence round trip returns the saved
history exactly — capped at its 10000 most recent entries, the
`maxHistoryItems` slice — provided every record's timestamp and asset
strings are safe: free of whitespace, quotes, backslashes and control
characters, and distinct from the six key tokens `t`, `p`, `a`,
`timestamp`, `price`, `asset` that the compression substitutes. The
spec's unconditional round-trip law fails on real data because
`toLocaleString()` timestamps contain spaces, which the
whitespace-stripping compression deletes. -/
theorem c1_roundtrip_amended (st : Storage) (history : List HistItem) (asset : String)
    (hsafe : ∀ it ∈ history, safeItem it) :
    loadHistory (saveHistory st history asset) asset = history.take 10000 := by
  have hsafeT : ∀ it ∈ history.take 10000, safeItem it := fun it hit =>
    hsafe it (List.take_subset _ _ hit)
  have hq : ∀ x ∈ history.take 10000, '"' ∉ x.timestamp ∧ '"' ∉ x.asset := fun x hx =>
    ⟨safeField_no_quote (hsafeT x hx).1, safeField_no_quote (hsafeT x hx).2⟩
  have hparse : parseItems (decompressStr (compressStr
      (jsonStringifyHistory (history.take 10000)))) = some (history.take 10000) := by
    rw [compress_stringify _ hsafeT, decompress_stringify _ hsafeT]
    exact parseItems_stringify _ hq
  have hblob : (saveHistory st history asset).hist ("priceHistory_" ++ asset)
      = some (compressStr (jsonStringifyHistory (history.take 10000))) := by
    simp [saveHistory]
  simp only [loadHistory, hblob, hparse]

/-- Witness: the amended round trip at a concrete one-point safe history,
with the safety hypothesis discharged by evaluation. -/
theorem c1_roundtrip_amended_witness :
    (∀ it ∈ [(⟨7, "2024-01-01T10:00".toList, "btc".toList⟩ : HistItem)], safeItem it) ∧
    loadHistory (saveHistory c1EmptyStore
        [⟨7, "2024-01-01T10:00".toList, "btc".toList⟩] "btc") "btc"
      = ([(⟨7, "2024-01-01T10:00".toList, "btc".toList⟩ : HistItem)]).take 10000 := by
  have hs : ∀ it ∈ [(⟨7, "2024-01-01T10:00".toList, "btc".toList⟩ : HistItem)],
      safeItem it := by
    intro it hit
    simp only [List.mem_singleton] at hit
    subst hit
    exact ⟨⟨by decide, by decide⟩, ⟨by decide, by decide⟩⟩
  exact ⟨hs, c1_roundtrip_amended c1EmptyStore
    [⟨7, "2024-01-01T10:00".toList, "btc".toList⟩] "btc" hs⟩
